import Mathlib

/-!
Verification of the static source-analysis layer of the bitbucket code-review
agent: the Function/Line/Docstring data model, tree-sitter based entity
extraction (code_context_provider.py), diff attribution
(pull_request_processor.analyse_diff) and the declarative pipeline/node
configuration queries.

Modelling conventions:
- Python strings are modelled as List Char (named Text below); Python list
  indexing, slicing and splitting become the corresponding List operations.
- Python sets of strings are modelled as duplicate-free lists; only their
  membership is ever relied on, since Python set iteration order is
  unspecified.
- The tree-sitter concrete syntax tree is modelled by the inductive type
  CNode: kind tag, node text, named flag, the field name under which the
  node sits in its parent, start/end rows (0-based, the only coordinates the
  analysed code reads), and the ordered children.
- File I/O is modelled by a lookup fs : Text -> Option Text (none = the open
  call raises FileNotFoundError); the YAML parser by an Except Unit Yaml
  value (error = yaml.safe_load raised).
-/

/-- Python str, modelled as a list of characters. -/
abbrev Text := List Char

/-! ### textwrap.dedent

CPython's textwrap.dedent first replaces every line consisting solely of
spaces/tabs by an empty line, then computes the longest common leading
whitespace of the remaining nonempty lines, and strips it from every line
that starts with it. -/

def isWsChar (c : Char) : Bool := c = ' ' || c = '\t'

/-- A nonempty line made only of spaces and tabs (CPython whitespace-only
regular expression). -/
def wsOnly (l : Text) : Bool := !l.isEmpty && l.all isWsChar

def indentOf (l : Text) : Text := l.takeWhile isWsChar

/-- Longest common prefix of two character lists. -/
def lcp : Text → Text → Text
  | a :: as, b :: bs => if a = b then a :: lcp as bs else []
  | _, _ => []

/-- Whitespace-only lines are normalized to empty lines. -/
def blankNorm (ls : List Text) : List Text :=
  ls.map (fun l => if wsOnly l then [] else l)

/-- The common leading-whitespace margin of a list of lines (computed, as in
CPython, from the blank-normalized nonempty lines). -/
def marginOf (ls : List Text) : Text :=
  match (blankNorm ls).filter (fun l => !l.isEmpty) with
  | [] => []
  | l :: rest => (rest.map indentOf).foldl lcp (indentOf l)

/-- Strip the margin from a line that starts with it (the re.sub step). -/
def stripMargin (m : Text) (l : Text) : Text :=
  if m.isPrefixOf l then l.drop m.length else l

def dedentLines (ls : List Text) : List Text :=
  (blankNorm ls).map (stripMargin (marginOf ls))

def joinNL (ls : List Text) : Text := List.intercalate ['\n'] ls

/-- textwrap.dedent on a whole text ('\r'-free texts; the repository is read
as utf-8 text). -/
def dedentText (t : Text) : Text := joinNL (dedentLines (t.splitOn '\n'))

/-- Python str.splitlines restricted to '\n' newlines. -/
def pySplitlines (t : Text) : List Text :=
  if t.isEmpty then []
  else if t.getLast? = some '\n' then (t.splitOn '\n').dropLast
  else t.splitOn '\n'

/-- Number of lines of a text, counted the way the spec counts them (one more
than the number of newline separators). -/
def lineCount (t : Text) : Nat := (t.splitOn '\n').length

/-! ### The concrete syntax tree (tree-sitter)

Each node carries its kind tag, its raw source text (node.text decoded), the
tree-sitter named flag, the field name under which it sits in its parent
(child_by_field_name lookups), its 0-based start and end rows (the analysed
code only ever reads the row component of start_point/end_point), and its
ordered children. -/

inductive CNode where
  | mk (field : Option String) (kind : String) (named : Bool) (text : String)
       (startRow endRow : Nat) (children : List CNode)

def CNode.field : CNode → Option String | .mk f _ _ _ _ _ _ => f
def CNode.kind : CNode → String | .mk _ k _ _ _ _ _ => k
def CNode.named : CNode → Bool | .mk _ _ nm _ _ _ _ => nm
def CNode.text : CNode → String | .mk _ _ _ tx _ _ _ => tx
def CNode.startRow : CNode → Nat | .mk _ _ _ _ sr _ _ => sr
def CNode.endRow : CNode → Nat | .mk _ _ _ _ _ er _ => er
def CNode.children : CNode → List CNode | .mk _ _ _ _ _ _ cs => cs

/-- node.child_by_field_name: the first child carrying the given field name. -/
def childByField (n : CNode) (f : String) : Option CNode :=
  n.children.find? (fun c => c.field = some f)

mutual

/-- All nodes of a subtree, in pre-order. -/
def allNodes : CNode → List CNode
  | .mk f k nm tx sr er cs => .mk f k nm tx sr er cs :: allNodesL cs

def allNodesL : List CNode → List CNode
  | [] => []
  | c :: rest => allNodes c ++ allNodesL rest

end

mutual

/-- Does the subtree contain a function-definition node? -/
def hasFnDef : CNode → Bool
  | .mk _ k _ _ _ _ cs => k = "function_definition" || hasFnDefL cs

def hasFnDefL : List CNode → Bool
  | [] => false
  | c :: rest => hasFnDef c || hasFnDefL rest

end

/-! ### Entity model -/

/-- Modelled from the spec: line.py is absent from the sources. A Line is
(line_number, text); the spec's number-only equality/hash is only used when
deduplicating raw diff lines, which no claim exercises, so structural
equality is used here. -/
structure Line where
  line_num : Nat
  text : Text
deriving DecidableEq

/-- Modelled from the spec: docstring.py is absent from the sources. A
Docstring is (start_line, end_line, content). -/
structure Docstring where
  start_line : Nat
  end_line : Nat
  content : Text
deriving DecidableEq

/-- function.py Function. Fields that the constructor defaults to None and
that the extractor always fills (dependencies, imports, params) are modelled
as plain lists; start_line/end_line keep their optionality because
get_dep_func builds Functions without line numbers. -/
structure Function where
  func_name : String
  func_code : Text
  class_name : Option String := none
  is_method : Bool := false
  dependencies : List String := []
  imports : List Text := []
  params : List String := []
  docstring : Option Docstring := none
  start_line : Option Nat := none
  end_line : Option Nat := none
  added_lines : List Line := []
  removed_lines : List Line := []
deriving DecidableEq

/-- Function.addInformation: append one added and/or removed Line. The Python
truthiness test on the argument is modelled by the Option being some (a Line
object is always truthy). -/
def addInformation (f : Function) (added removed : Option Line) : Function :=
  let f1 := match added with
    | some a => { f with added_lines := f.added_lines ++ [a] }
    | none => f
  match removed with
  | some r => { f1 with removed_lines := f1.removed_lines ++ [r] }
  | none => f1

/-- Function.mergeFunctions: concatenate the two code bodies around a blank
line, dedent the concatenation, and take the set union of the dependency
lists (list(set(...)) in the source; Python set order is unspecified, so any
duplicate-free listing of the union is a faithful image). -/
def mergeFunctions (f : Function) (other : Function) : Function :=
  { f with
    func_code := dedentText (f.func_code ++ ('\n' :: '\n' :: other.func_code)),
    dependencies := (f.dependencies ++ other.dependencies).dedup }

/-! ### Entity extraction (code_context_provider.py) -/

/-- _extract_code: the verbatim source lines spanning the node's row range
(Python: lines[line_num] for line_num in range(start, end + 1)), joined and
dedented. Out-of-range indexing is modelled by getD with an empty line; the
source would raise IndexError there, and the well-formedness hypotheses of
the theorems keep rows in range. -/
def extract_code (code : Text) (n : CNode) : Text :=
  let lines := pySplitlines code
  let extracted := (List.range' n.startRow (n.endRow + 1 - n.startRow)).map
    (fun i => lines.getD i [])
  dedentText (joinNL extracted)

/-- The call target recorded by _extract_dependencies for a call node: a bare
identifier call records the identifier, an attribute call records only the
trailing attribute name (the receiver is discarded). -/
def callTarget (n : CNode) : Option String :=
  match childByField n "function" with
  | some fn =>
    if fn.kind = "identifier" then some fn.text
    else if fn.kind = "attribute" then (childByField fn "attribute").map (·.text)
    else none
  | none => none

mutual

/-- The unscoped sub-traversal of _extract_dependencies: visit every node of
the subtree and collect the call targets, in visit order. -/
def depsCollect : CNode → List String
  | .mk f k nm tx sr er cs =>
    (if k = "call" then (callTarget (.mk f k nm tx sr er cs)).toList else [])
      ++ depsCollectL cs

def depsCollectL : List CNode → List String
  | [] => []
  | c :: rest => depsCollect c ++ depsCollectL rest

end

/-- _extract_dependencies: the collected call-target names as a set
(duplicate-free list; Python builds a set and returns list(set)). -/
def extract_dependencies (n : CNode) : List String := (depsCollect n).dedup

/-- _extract_imports: every import_statement / import_from_statement node in
the whole file, rendered back to source text. The tree-sitter query captures
are modelled in pre-order. -/
def extract_imports (code : Text) (root : CNode) : List Text :=
  ((allNodes root).filter
    (fun n => n.kind = "import_statement" || n.kind = "import_from_statement")).map
    (extract_code code)

/-- _extract_lines: 1-based inclusive line span from the node rows. -/
def extract_lines (n : CNode) : Nat × Nat := (n.startRow + 1, n.endRow + 1)

/-- _extract_docstring: the first expression-statement of the function's
block whose first child is a string. (The source indexes children[0], which
would raise on a childless expression statement; such nodes are skipped
here and do not occur in tree-sitter output.) -/
def extract_docstring (code : Text) (n : CNode) : Option Docstring :=
  n.children.findSome? fun c =>
    if c.kind = "block" then
      c.children.findSome? fun bc =>
        if bc.kind = "expression_statement" then
          match bc.children.head? with
          | some s0 =>
            if s0.kind = "string" then
              some ⟨s0.startRow + 1, s0.endRow + 1, extract_code code s0⟩
            else none
          | none => none
        else none
    else none

/-- _extract_fixtures: the simple identifier parameters of the signature
(named children of the parameters field that are identifiers). -/
def extract_fixtures (n : CNode) : List String :=
  match childByField n "parameters" with
  | some ps => ((ps.children.filter (fun p => p.named)).filter
      (fun p => p.kind = "identifier")).map (·.text)
  | none => []

/-- The name child of a definition node. The source dereferences it without a
check (a missing name would raise); tree-sitter definition nodes always carry
one, and the default never surfaces in the theorems. -/
def nameOf (n : CNode) : String := ((childByField n "name").map (·.text)).getD ""

mutual

/-- The visit coroutine of _extract_info: a function_definition node emits one
Function and does not recurse; a class_definition node recurses with the
enclosing-class name updated; any other node recurses unchanged. -/
def extractVisit (code : Text) (root : CNode) (currentClass : Option String) :
    CNode → List Function
  | .mk f k nm tx sr er cs =>
    let n : CNode := .mk f k nm tx sr er cs
    if k = "function_definition" then
      [{ func_name := nameOf n
         func_code := extract_code code n
         class_name := currentClass
         is_method := currentClass.isSome
         dependencies := extract_dependencies n
         imports := extract_imports code root
         params := extract_fixtures n
         docstring := extract_docstring code n
         start_line := some (extract_lines n).1
         end_line := some (extract_lines n).2 }]
    else if k = "class_definition" then
      extractVisitL code root (some (nameOf n)) cs
    else
      extractVisitL code root currentClass cs

def extractVisitL (code : Text) (root : CNode) (currentClass : Option String) :
    List CNode → List Function
  | [] => []
  | c :: rest =>
    extractVisit code root currentClass c ++ extractVisitL code root currentClass rest

end

/-- _extract_info: traversal starts at the children of the root node with no
enclosing class. -/
def extract_info (code : Text) (root : CNode) : List Function :=
  extractVisitL code root none root.children

/-- build_context: read the file, parse it, extract, and return the codebase
dictionary (initially empty, one entry per processed path); an absent file
(FileNotFoundError) returns the dictionary unchanged. The tree-sitter parser
is an external collaborator, passed in as a function. -/
def build_context (parse : Text → CNode) (fs : Text → Option Text)
    (path : Text) : List (Text × List Function) :=
  match fs path with
  | none => []
  | some code => [(path, extract_info code (parse code))]

mutual

/-- The recursive search of get_dep_func: first function_definition node
named dep, in pre-order, nested definitions included. -/
def depVisit (code : Text) (dep : String) : CNode → Option Function
  | .mk f k nm tx sr er cs =>
    let n : CNode := .mk f k nm tx sr er cs
    if k = "function_definition" ∧ nameOf n = dep then
      some { func_name := nameOf n, func_code := extract_code code n }
    else depVisitL code dep cs

def depVisitL (code : Text) (dep : String) : List CNode → Option Function
  | [] => none
  | c :: rest =>
    match depVisit code dep c with
    | some r => some r
    | none => depVisitL code dep rest

end

/-- get_dep_func: append the source extension when the path does not contain
it as a substring, open the file (no handler: an absent file propagates the
failure, modelled as Except.error), parse and search. -/
def get_dep_func (parse : Text → CNode) (fs : Text → Option Text)
    (path : Text) (dep : String) : Except Unit (Option Function) :=
  let path' := if (".py".toList) <:+: path then path else path ++ ".py".toList
  match fs path' with
  | none => .error ()
  | some code => .ok (depVisit code dep (parse code))

/-- get_file_docstring: open the file (no handler: an absent file propagates
the failure), parse, and return the first top-level string statement's
string_content as the module docstring. -/
def get_file_docstring (parse : Text → CNode) (fs : Text → Option Text)
    (path : Text) : Except Unit (Option Docstring) :=
  match fs path with
  | none => .error ()
  | some code =>
    .ok ((parse code).children.findSome? fun c =>
      if c.kind = "expression_statement" then
        c.children.findSome? fun g =>
          if g.kind = "string" then
            g.children.findSome? fun sp =>
              if sp.kind = "string_content" then
                some ⟨sp.startRow + 1, sp.endRow + 1, extract_code code sp⟩
              else none
          else none
      else none)

/-! ### Diff attribution (pull_request_processor.analyse_diff) -/

def lineNumsOf (ls : List Line) : List Nat := ls.map (·.line_num)

/-- start_line <= L <= end_line for a Function; a Function without line
numbers never matches (the source would raise comparing None with an int;
attribution inputs are extracted Functions, which always carry spans). -/
def spanContains (f : Function) (L : Nat) : Bool :=
  match f.start_line, f.end_line with
  | some s, some e => decide (s ≤ L) && decide (L ≤ e)
  | _, _ => false

/-- The inner recording step of analyse_diff for the selected function: if
the line number is among the added numbers, append every added Line with that
number; otherwise if it is among the removed numbers, append every removed
Line with that number. -/
def recordOn (added removed : List Line) (aN rN : List Nat) (L : Nat)
    (f : Function) : Function :=
  if L ∈ aN then
    (added.filter (fun l => l.line_num = L)).foldl
      (fun g a => addInformation g (some a) none) f
  else if L ∈ rN then
    (removed.filter (fun l => l.line_num = L)).foldl
      (fun g r => addInformation g none (some r)) f
  else f

/-- The inner function scan of analyse_diff for one changed line number:
record on the first function whose span contains it, then break. -/
def attributeLine (added removed : List Line) (aN rN : List Nat) (L : Nat) :
    List Function → List Function
  | [] => []
  | f :: fs =>
    if spanContains f L then recordOn added removed aN rN L f :: fs
    else f :: attributeLine added removed aN rN L fs

/-- analyse_diff: the distinct changed line numbers (list(set(added + removed));
set iteration order is unspecified, modelled as a duplicate-free listing) are
attributed one by one; the mutated function list is returned. -/
def analyse_diff (added removed : List Line) (fns : List Function) :
    List Function :=
  let aN := lineNumsOf added
  let rN := lineNumsOf removed
  ((aN ++ rN).dedup).foldl (fun fs L => attributeLine added removed aN rN L fs) fns

/-! ### Declarative pipeline/node configuration (yaml.safe_load output)

A parsed configuration document: mappings (string keys, as in the analysed
configurations), sequences, strings, and a null/other scalar. The parse step
is external (yaml.safe_load); a parse failure is the Except.error value. -/

inductive Yaml where
  | null
  | str (s : String)
  | list (xs : List Yaml)
  | map (es : List (String × Yaml))

/-- Key membership in a parsed mapping. -/
def hasKey (es : List (String × Yaml)) (k : String) : Bool :=
  es.any (fun e => e.1 = k)

/-- Mapping lookup (first occurrence; parsed YAML mappings have unique keys). -/
def lookupY (es : List (String × Yaml)) (k : String) : Yaml :=
  ((es.find? (fun e => e.1 = k)).map (·.2)).getD .null

/-- Sequencing of two fallible sub-traversals of get_defined_pipelines: the
first exception wins, otherwise the collected contributions are concatenated
in traversal order. -/
def exSeq {α : Type} (a b : Except Unit (List α)) : Except Unit (List α) :=
  match a with
  | .error e => .error e
  | .ok l1 =>
    match b with
    | .error e => .error e
    | .ok l2 => .ok (l1 ++ l2)

/-- One element of Python set(nodes): strings and None are hashable and enter
the set; a sequence or mapping element is unhashable and raises TypeError. -/
def pySetElem : Yaml → Except Unit (Option String)
  | .str s => .ok (some s)
  | .null => .ok none
  | _ => .error ()

/-- Python set(v) on a parsed value: a sequence yields the set of its
hashable elements (strings, or None modelled as the none element), a string
the set of its one-character substrings, a mapping the set of its keys;
set(None) and an unhashable element raise TypeError, which the blanket
handler of get_defined_pipelines turns into an empty result for the whole
document. Python set iteration order is unspecified; the set is a
duplicate-free list. -/
def pySet : Yaml → Except Unit (List (Option String))
  | .list xs => (xs.mapM pySetElem).map List.dedup
  | .str s => .ok ((s.data.map (fun c => some (String.mk [c]))).dedup)
  | .map es => .ok ((es.map (fun e => some e.1)).dedup)
  | .null => .error ()

mutual

/-- The recursive visit of get_called_pipelines: a mapping entry with key
"pipelines" whose value is a sequence contributes its string elements (and is
not descended into); any other entry value is visited; sequences are visited
elementwise. -/
def calledVisit : Yaml → List String
  | .map es => calledVisitM es
  | .list xs => calledVisitL xs
  | _ => []

def calledVisitM : List (String × Yaml) → List String
  | [] => []
  | (k, .list xs) :: rest =>
    (if k = "pipelines" then
       xs.filterMap (fun y => match y with | .str s => some s | _ => none)
     else calledVisitL xs) ++ calledVisitM rest
  | (_, .map es) :: rest => calledVisitM es ++ calledVisitM rest
  | (_, _) :: rest => calledVisitM rest

def calledVisitL : List Yaml → List String
  | [] => []
  | y :: rest => calledVisit y ++ calledVisitL rest

end

/-- get_called_pipelines: empty set on a parse failure, otherwise the
collected names as a set. -/
def get_called_pipelines (parsed : Except Unit Yaml) : List String :=
  match parsed with
  | .error _ => []
  | .ok d => (calledVisit d).dedup

mutual

/-- The recursive visit of get_defined_pipelines: a mapping entry whose value
is itself a mapping containing a "nodes" key computes set(nodes value)
(which may raise), contributes (key, that set) and is then descended into; a
mapping value WITHOUT a "nodes" key is not descended into; non-mapping values
and sequence elements are visited. An exception anywhere aborts the whole
traversal (the source catches it only at the top, returning the empty map). -/
def definedVisit : Yaml → Except Unit (List (String × List (Option String)))
  | .map es => definedVisitM es
  | .list xs => definedVisitL xs
  | _ => .ok []

def definedVisitM :
    List (String × Yaml) → Except Unit (List (String × List (Option String)))
  | [] => .ok []
  | (k, .map m) :: rest =>
    if hasKey m "nodes" then
      match pySet (lookupY m "nodes") with
      | .error e => .error e
      | .ok ns =>
        exSeq ((definedVisitM m).map (fun l => (k, ns) :: l)) (definedVisitM rest)
    else definedVisitM rest
  | (_, .list xs) :: rest => exSeq (definedVisitL xs) (definedVisitM rest)
  | (_, _) :: rest => definedVisitM rest

def definedVisitL :
    List Yaml → Except Unit (List (String × List (Option String)))
  | [] => .ok []
  | y :: rest => exSeq (definedVisit y) (definedVisitL rest)

end

/-- Python dict insertion: overwrite in place, else append. -/
def dictInsert {α : Type} (m : List (String × α)) (k : String) (v : α) :
    List (String × α) :=
  if m.any (fun e => e.1 = k) then
    m.map (fun e => if e.1 = k then (k, v) else e)
  else m ++ [(k, v)]

/-- get_defined_pipelines: empty map on a parse failure or when the visit
raises (set() of a non-iterable nodes value), otherwise the all_pipelines
dictionary accumulated over the visit (a later entry for the same name
overwrites an earlier one). -/
def get_defined_pipelines (parsed : Except Unit Yaml) :
    List (String × List (Option String)) :=
  match parsed with
  | .error _ => []
  | .ok d =>
    match definedVisit d with
    | .error _ => []
    | .ok pairs => pairs.foldl (fun m kv => dictInsert m kv.1 kv.2) []

/-- The per-node record of get_defined_nodes. -/
structure NodeInfo where
  file : Text
  func : Yaml
  inputs : Yaml

/-- Path(p).parts[1:] rejoined with forward slashes: the local working-copy
root segment is stripped (os.path.normpath of an empty relative path is the
dot path). -/
def repoFilePath (p : Text) : Text :=
  let segs := (p.splitOn '/').drop 1
  if segs.isEmpty then ['.'] else List.intercalate ['/'] segs

/-- The entry-building loop body of get_defined_nodes: values['func'] and
values['inputs'] raise a KeyError (caught by the blanket handler) when the
value is not a mapping carrying both keys. -/
def nodesBuild (path : Text) :
    List (String × Yaml) → Except Unit (List (String × NodeInfo))
  | [] => .ok []
  | (k, v) :: rest =>
    match v with
    | .map m =>
      if hasKey m "func" then
        if hasKey m "inputs" then
          match nodesBuild path rest with
          | .ok built => .ok (dictInsert built k
              ⟨repoFilePath path, lookupY m "func", lookupY m "inputs"⟩)
          | .error e => .error e
        else .error ()
      else .error ()
    | _ => .error ()

/-- get_defined_nodes: empty map on a parse failure; a falsy document (null,
empty) yields the empty map; a non-mapping document raises on .items() and the
blanket handler also yields the empty map; otherwise one entry per top-level
key. The accumulation order of the source dict is insertion order over
data.items(); nodesBuild folds from the right, and dictInsert keeps one entry
per key, which coincides with the source for the duplicate-free keys of a
parsed mapping. -/
def get_defined_nodes (path : Text) (parsed : Except Unit Yaml) :
    List (String × NodeInfo) :=
  match parsed with
  | .error _ => []
  | .ok d =>
    match d with
    | .map [] => []
    | .map es =>
      match nodesBuild path es with
      | .ok m => m
      | .error _ => []
    | _ => []


/-! ### Auxiliary notions used only in the statements of the theorems -/

/-- Re-indent every line by a prefix (the literal reading of the round-trip
property). -/
def reindentAll (p : Text) (ls : List Text) : List Text := ls.map (fun l => p ++ l)

/-- Re-indent every nonempty line by a prefix (the textwrap.indent reading,
where blank lines carry no indentation). -/
def reindentNE (p : Text) (ls : List Text) : List Text :=
  ls.map (fun l => if l.isEmpty then l else p ++ l)

/-- A changed line number is recorded on a Function: some attributed Line
with that number sits in its added or removed lines. -/
def recordsLine (f : Function) (L : Nat) : Prop :=
  (∃ l ∈ f.added_lines, l.line_num = L) ∨ (∃ l ∈ f.removed_lines, l.line_num = L)

/-- The span fields of two lists of Functions agree pointwise. -/
def sameSpans (xs ys : List Function) : Prop :=
  xs.length = ys.length ∧
  ∀ i (hx : i < xs.length) (hy : i < ys.length),
    (xs.get ⟨i, hx⟩).start_line = (ys.get ⟨i, hy⟩).start_line ∧
    (xs.get ⟨i, hx⟩).end_line = (ys.get ⟨i, hy⟩).end_line

instance : Inhabited Function := ⟨{ func_name := "", func_code := [] }⟩

/-- Ordered sibling separation: any two function-definition-bearing siblings
occupy disjoint row ranges, in document order. -/
def sibOk : List CNode → Bool
  | [] => true
  | c :: rest =>
    rest.all (fun d => !hasFnDef c || !hasFnDef d || decide (c.endRow < d.startRow))
      && sibOk rest

mutual

/-- Well-formedness of a parse tree, as tree-sitter produces it for Python
sources: nonempty row spans, children inside their parent, every
function-definition strictly nested inside another starting on a strictly
later row, and function-definition-bearing siblings on disjoint row ranges. -/
def wfNode : CNode → Bool
  | .mk _ k _ _ sr er cs =>
    decide (sr ≤ er)
    && cs.all (fun c => decide (sr ≤ c.startRow) && decide (c.endRow ≤ er))
    && (!(decide (k = "function_definition"))
        || (allNodesL cs).all
             (fun d => !(decide (d.kind = "function_definition"))
               || decide (sr < d.startRow)))
    && sibOk cs
    && wfNodeL cs

def wfNodeL : List CNode → Bool
  | [] => true
  | c :: rest => wfNode c && wfNodeL rest

end

/-- The subtrees visited by the get_defined_pipelines traversal: from a
sequence it visits every element; from a mapping it visits every non-mapping
value, and a mapping value only when that value carries a "nodes" key. -/
inductive DReach : Yaml → Yaml → Prop where
  | refl (d : Yaml) : DReach d d
  | listElem {d : Yaml} {xs : List Yaml} {y : Yaml} :
      DReach d (.list xs) → y ∈ xs → DReach d y
  | mapOther {d : Yaml} {es : List (String × Yaml)} {k : String} {v : Yaml} :
      DReach d (.map es) → (k, v) ∈ es → (∀ m, v ≠ .map m) → DReach d v
  | mapNodes {d : Yaml} {es m : List (String × Yaml)} {k : String} :
      DReach d (.map es) → (k, .map m) ∈ es → hasKey m "nodes" = true →
      DReach d (.map m)

/-! ### Concrete inputs used by witnesses and counterexamples -/

/-- The tree-sitter parse of the scenario source
"def f():(NL)    x = g()(NL)    return x": the function_definition node. -/
def exFnDef : CNode :=
  .mk none "function_definition" true "def f():\n    x = g()\n    return x" 0 2
    [ .mk none "def" false "def" 0 0 [],
      .mk (some "name") "identifier" true "f" 0 0 [],
      .mk (some "parameters") "parameters" true "()" 0 0 [],
      .mk none ":" false ":" 0 0 [],
      .mk (some "body") "block" true "x = g()\n    return x" 1 2
        [ .mk none "expression_statement" true "x = g()" 1 1
            [ .mk none "assignment" true "x = g()" 1 1
                [ .mk (some "left") "identifier" true "x" 1 1 [],
                  .mk none "=" false "=" 1 1 [],
                  .mk (some "right") "call" true "g()" 1 1
                    [ .mk (some "function") "identifier" true "g" 1 1 [],
                      .mk (some "arguments") "argument_list" true "()" 1 1 [] ] ] ],
          .mk none "return_statement" true "return x" 2 2
            [ .mk none "return" false "return" 2 2 [],
              .mk none "identifier" true "x" 2 2 [] ] ] ]

/-- A two-function module tree (rows 0-3), used to instantiate the
well-formedness hypotheses on a concrete parse. -/
def exModule : CNode :=
  .mk none "module" true "def f():\n    pass\ndef g():\n    pass" 0 3
    [ .mk none "function_definition" true "def f():\n    pass" 0 1
        [ .mk none "def" false "def" 0 0 [],
          .mk (some "name") "identifier" true "f" 0 0 [],
          .mk (some "parameters") "parameters" true "()" 0 0 [],
          .mk none ":" false ":" 0 0 [],
          .mk (some "body") "block" true "pass" 1 1
            [ .mk none "pass_statement" true "pass" 1 1 [] ] ],
      .mk none "function_definition" true "def g():\n    pass" 2 3
        [ .mk none "def" false "def" 2 2 [],
          .mk (some "name") "identifier" true "g" 2 2 [],
          .mk (some "parameters") "parameters" true "()" 2 2 [],
          .mk none ":" false ":" 2 2 [],
          .mk (some "body") "block" true "pass" 3 3
            [ .mk none "pass_statement" true "pass" 3 3 [] ] ] ]

/-- The source text of exModule. -/
def exModuleCode : Text := "def f():\n    pass\ndef g():\n    pass".toList

/-! ## Lemmas and theorems -/

/-! ### lcp lemmas -/

theorem lcp_prefix_left : ∀ a b : Text, lcp a b <+: a := by
  intro a
  induction a with
  | nil => intro b; cases b <;> simp [lcp]
  | cons x xs ih =>
    intro b
    cases b with
    | nil => simp [lcp]
    | cons y ys =>
      by_cases h : x = y
      · simpa [lcp, h] using ih ys
      · simp [lcp, h]

theorem lcp_prefix_right : ∀ a b : Text, lcp a b <+: b := by
  intro a
  induction a with
  | nil => intro b; cases b <;> simp [lcp]
  | cons x xs ih =>
    intro b
    cases b with
    | nil => simp [lcp]
    | cons y ys =>
      by_cases h : x = y
      · subst h
        simpa [lcp] using ih ys
      · simp [lcp, h]

theorem foldl_lcp_prefix_init (is : List Text) (i : Text) :
    is.foldl lcp i <+: i := by
  induction is generalizing i with
  | nil => simp
  | cons a as ih =>
    calc (a :: as).foldl lcp i = as.foldl lcp (lcp i a) := rfl
    _ <+: lcp i a := ih _
    _ <+: i := lcp_prefix_left _ _

theorem foldl_lcp_prefix_mem (is : List Text) (i : Text) :
    ∀ j ∈ is, is.foldl lcp i <+: j := by
  induction is generalizing i with
  | nil => simp
  | cons a as ih =>
    intro j hj
    rcases List.mem_cons.mp hj with rfl | hj
    · calc (j :: as).foldl lcp i = as.foldl lcp (lcp i j) := rfl
      _ <+: lcp i j := foldl_lcp_prefix_init _ _
      _ <+: j := lcp_prefix_right _ _
    · exact ih (lcp i a) j hj

/-- The margin is a prefix of every nonempty blank-normalized line. -/
theorem marginOf_prefix (ls : List Text) :
    ∀ l ∈ blankNorm ls, l ≠ [] → marginOf ls <+: l := by
  intro l hl hne
  have hmem : l ∈ (blankNorm ls).filter (fun l => !l.isEmpty) := by
    simp only [List.mem_filter]
    exact ⟨hl, by simpa [List.isEmpty_iff] using hne⟩
  have hind : marginOf ls <+: indentOf l := by
    unfold marginOf
    rcases hfe : (blankNorm ls).filter (fun l => !l.isEmpty) with _ | ⟨x, rest⟩
    · rw [hfe] at hmem; simp at hmem
    · rw [hfe] at hmem
      rw [hfe]
      rcases List.mem_cons.mp hmem with rfl | hmem
      · exact foldl_lcp_prefix_init _ _
      · exact foldl_lcp_prefix_mem _ _ _ (List.mem_map_of_mem indentOf hmem)
  exact hind.trans (List.takeWhile_prefix _)

/-- Strong induction principle for CNode with membership hypotheses for the
children. -/
theorem cnodeInduction {P : CNode → Prop}
    (h : ∀ f k nm tx sr er cs, (∀ c ∈ cs, P c) → P (.mk f k nm tx sr er cs)) :
    ∀ n, P n := by
  have H : ∀ (N : Nat) (n : CNode), sizeOf n ≤ N → P n := by
    intro N
    induction N with
    | zero =>
      intro n hn
      cases n with
      | mk f k nm tx sr er cs => rw [CNode.mk.sizeOf_spec] at hn; omega
    | succ N ih =>
      intro n hn
      cases n with
      | mk f k nm tx sr er cs =>
        apply h
        intro c hc
        apply ih
        have h1 := List.sizeOf_lt_of_mem hc
        have h2 : sizeOf (CNode.mk f k nm tx sr er cs) =
            1 + sizeOf f + sizeOf k + sizeOf nm + sizeOf tx + sizeOf sr + sizeOf er
              + sizeOf cs := by simp
        omega
  exact fun n => H (sizeOf n) n le_rfl

theorem allNodes_eq (n : CNode) : allNodes n = n :: allNodesL n.children := by
  cases n; rfl

theorem mem_allNodesL {c : CNode} {cs : List CNode} :
    c ∈ allNodesL cs ↔ ∃ x ∈ cs, c ∈ allNodes x := by
  induction cs with
  | nil => simp [allNodesL]
  | cons x rest ih =>
    simp only [allNodesL, List.mem_append, ih]
    constructor
    · rintro (h | ⟨y, hy, hc⟩)
      · exact ⟨x, List.mem_cons_self _ _, h⟩
      · exact ⟨y, List.mem_cons_of_mem _ hy, hc⟩
    · rintro ⟨y, hy, hc⟩
      rcases List.mem_cons.mp hy with rfl | hy
      · exact Or.inl hc
      · exact Or.inr ⟨y, hy, hc⟩

theorem self_mem_allNodes (n : CNode) : n ∈ allNodes n := by
  rw [allNodes_eq]; exact List.mem_cons_self _ _

theorem allNodes_trans : ∀ n m q : CNode, m ∈ allNodes n → q ∈ allNodes m →
    q ∈ allNodes n := by
  intro n
  induction n using cnodeInduction with
  | h f k nm tx sr er cs ih =>
    intro m q hm hq
    rw [allNodes_eq] at hm ⊢
    rcases List.mem_cons.mp hm with rfl | hm
    · rwa [allNodes_eq] at hq
    · rcases mem_allNodesL.mp hm with ⟨x, hx, hmx⟩
      exact List.mem_cons_of_mem _ (mem_allNodesL.mpr ⟨x, hx, ih x hx m q hmx hq⟩)

theorem hasFnDefL_iff : ∀ cs : List CNode,
    hasFnDefL cs = true ↔ ∃ c ∈ cs, hasFnDef c = true := by
  intro cs
  induction cs with
  | nil => simp [hasFnDefL]
  | cons x rest ih =>
    simp only [hasFnDefL, Bool.or_eq_true, ih]
    constructor
    · rintro (h | ⟨c, hc, h⟩)
      · exact ⟨x, List.mem_cons_self _ _, h⟩
      · exact ⟨c, List.mem_cons_of_mem _ hc, h⟩
    · rintro ⟨c, hc, h⟩
      rcases List.mem_cons.mp hc with rfl | hc
      · exact Or.inl h
      · exact Or.inr ⟨c, hc, h⟩

theorem hasFnDef_of_mem : ∀ n m : CNode, m ∈ allNodes n →
    m.kind = "function_definition" → hasFnDef n = true := by
  intro n
  induction n using cnodeInduction with
  | h f k nm tx sr er cs ih =>
    intro m hm hk
    rw [allNodes_eq] at hm
    simp only [hasFnDef, Bool.or_eq_true]
    rcases List.mem_cons.mp hm with rfl | hm
    · exact Or.inl (by simpa [CNode.kind] using hk)
    · rcases mem_allNodesL.mp hm with ⟨x, hx, hmx⟩
      exact Or.inr ((hasFnDefL_iff cs).mpr ⟨x, hx, ih x hx m hmx hk⟩)

/-- Strong induction principle for Yaml with membership hypotheses. -/
theorem yamlInduction {P : Yaml → Prop}
    (hnull : P .null) (hstr : ∀ s, P (.str s))
    (hlist : ∀ xs, (∀ y ∈ xs, P y) → P (.list xs))
    (hmap : ∀ es, (∀ kv ∈ es, P kv.2) → P (.map es)) :
    ∀ y, P y := by
  have H : ∀ (N : Nat) (y : Yaml), sizeOf y ≤ N → P y := by
    intro N
    induction N with
    | zero =>
      intro y hy
      cases y with
      | null => exact hnull
      | str s => rw [Yaml.str.sizeOf_spec] at hy; omega
      | list xs => rw [Yaml.list.sizeOf_spec] at hy; omega
      | map es => rw [Yaml.map.sizeOf_spec] at hy; omega
    | succ N ih =>
      intro y hy
      cases y with
      | null => exact hnull
      | str s => exact hstr s
      | list xs =>
        apply hlist
        intro c hc
        apply ih
        have h1 := List.sizeOf_lt_of_mem hc
        rw [Yaml.list.sizeOf_spec] at hy
        omega
      | map es =>
        apply hmap
        intro kv hkv
        apply ih
        have h1 := List.sizeOf_lt_of_mem hkv
        have h2 : sizeOf kv = 1 + sizeOf kv.1 + sizeOf kv.2 := by
          cases kv; simp
        rw [Yaml.map.sizeOf_spec] at hy
        omega
  exact fun y => H (sizeOf y) y le_rfl

/-! ### Dedent / re-indent lemmas -/

theorem marginOf_ws (ls : List Text) : ∀ c ∈ marginOf ls, isWsChar c = true := by
  intro c hc
  unfold marginOf at hc
  rcases hfe : (blankNorm ls).filter (fun l => !l.isEmpty) with _ | ⟨x, rest⟩
  · rw [hfe] at hc; simp at hc
  · rw [hfe] at hc
    have hpre : (rest.map indentOf).foldl lcp (indentOf x) <+: indentOf x :=
      foldl_lcp_prefix_init _ _
    exact List.mem_takeWhile_imp (hpre.subset hc)

theorem stripMargin_nil (l : Text) : stripMargin [] l = l := by
  simp [stripMargin]

theorem blankNorm_eq_self (ls : List Text) (h : ∀ l ∈ ls, wsOnly l = false) :
    blankNorm ls = ls := by
  unfold blankNorm
  calc ls.map (fun l => if wsOnly l then [] else l) = ls.map id := by
        apply List.map_congr_left
        intro l hl
        simp [h l hl]
  _ = ls := List.map_id ls

theorem dedentText_eq_self (t : Text)
    (hws : ∀ l ∈ t.splitOn '\n', wsOnly l = false)
    (hm : marginOf (t.splitOn '\n') = []) : dedentText t = t := by
  unfold dedentText dedentLines
  rw [blankNorm_eq_self _ hws, hm]
  have : (t.splitOn '\n').map (stripMargin []) = t.splitOn '\n' := by
    calc (t.splitOn '\n').map (stripMargin []) = (t.splitOn '\n').map id := by
          apply List.map_congr_left
          intro l _
          simp [stripMargin_nil]
    _ = t.splitOn '\n' := List.map_id _
  rw [this]
  exact List.intercalate_splitOn t '\n'

/-- Claim C6 counterexample: on the source slice with lines "  x", " ", "  y"
the whitespace-only middle line is normalized away by the de-indent, so
re-indenting by the original common prefix does not reconstruct the slice,
whether every line or only the nonempty lines are re-indented. -/
theorem dedent_roundtrip_counterexample :
    reindentAll (marginOf ["  x".toList, [' '], "  y".toList])
        (dedentLines ["  x".toList, [' '], "  y".toList])
      ≠ ["  x".toList, [' '], "  y".toList]
    ∧ reindentNE (marginOf ["  x".toList, [' '], "  y".toList])
        (dedentLines ["  x".toList, [' '], "  y".toList])
      ≠ ["  x".toList, [' '], "  y".toList] := by
  constructor <;> decide

/-- Claim C6 (amended): for every source slice none of whose lines is
whitespace-only, de-indenting by the common leading whitespace (as
_extract_code does through textwrap.dedent) and re-indenting every nonempty
line of the result by that common prefix (blank lines carry no indentation)
reconstructs the original slice line for line. -/
theorem dedent_roundtrip (ls : List Text) (h : ∀ l ∈ ls, wsOnly l = false) :
    reindentNE (marginOf ls) (dedentLines ls) = ls := by
  unfold reindentNE dedentLines
  rw [blankNorm_eq_self _ h, List.map_map]
  calc ls.map ((fun l => if l.isEmpty then l else marginOf ls ++ l)
        ∘ stripMargin (marginOf ls)) = ls.map id := by
        apply List.map_congr_left
        intro l hl
        simp only [Function.comp_apply, id_eq]
        rcases eq_or_ne l [] with rfl | hne
        · have h0 : stripMargin (marginOf ls) ([] : Text) = [] := by
            unfold stripMargin
            split <;> simp
          rw [h0]
          simp
        · have hpre : marginOf ls <+: l := by
            apply marginOf_prefix ls l _ hne
            rw [blankNorm_eq_self _ h]
            exact hl
          have hstrip : stripMargin (marginOf ls) l = l.drop (marginOf ls).length := by
            unfold stripMargin
            rw [if_pos (List.isPrefixOf_iff_prefix.mpr hpre)]
          rw [hstrip]
          have hdropne : l.drop (marginOf ls).length ≠ [] := by
            intro hdrop
            obtain ⟨t, ht⟩ := hpre
            have hlen : (marginOf ls).length + t.length = l.length := by
              rw [← ht]; simp
            have ht0 : t = [] := by
              rw [← ht] at hdrop
              rw [List.drop_left] at hdrop
              exact hdrop
            subst ht0
            have hl_eq : l = marginOf ls := by rw [← ht]; simp
            have : wsOnly l = true := by
              unfold wsOnly
              have : l.all isWsChar = true := by
                rw [List.all_eq_true]
                intro c hc
                exact marginOf_ws ls c (hl_eq ▸ hc)
              simp [this, List.isEmpty_iff, hne]
            rw [h l hl] at this
            exact Bool.false_ne_true this
          rw [if_neg (by simpa [List.isEmpty_iff] using hdropne)]
          obtain ⟨t, ht⟩ := hpre
          rw [← ht, List.drop_left]
  _ = ls := List.map_id _

/-- Witness for dedent_roundtrip at a concrete slice with an indented body
and an empty separator line. -/
theorem dedent_roundtrip_witness :
    reindentNE (marginOf ["  a".toList, [], "  b".toList])
        (dedentLines ["  a".toList, [], "  b".toList])
      = ["  a".toList, [], "  b".toList] :=
  dedent_roundtrip ["  a".toList, [], "  b".toList] (by decide)

/-- Claim C5 counterexample: merging two Functions whose bodies share leading
whitespace dedents the concatenation, so the merged code does not contain the
original bodies verbatim (with or without the blank-line separator). -/
theorem mergeFunctions_containment_counterexample :
    (mergeFunctions { func_name := "a", func_code := "  x".toList, dependencies := ["p"] }
        { func_name := "a", func_code := "  y".toList, dependencies := ["q"] }).func_code
      = "x\n\ny".toList
    ∧ ¬ ("  x".toList : Text) <:+:
        (mergeFunctions { func_name := "a", func_code := "  x".toList, dependencies := ["p"] }
          { func_name := "a", func_code := "  y".toList, dependencies := ["q"] }).func_code := by
  constructor <;> decide

/-- Claim C5 (amended): mergeFunctions leaves the first Function with
dependencies equal, as a set, to the union of the two original dependency
lists, and with code equal to the common-leading-whitespace de-indentation of
the first body, one blank line, and the second body; when that de-indentation
strips nothing (no whitespace-only line and an empty common margin, as for
bodies already starting at column zero), the code is exactly the two original
bodies separated by exactly one blank line. -/
theorem mergeFunctions_spec (A B : Function) :
    (∀ d, d ∈ (mergeFunctions A B).dependencies ↔
        d ∈ A.dependencies ∨ d ∈ B.dependencies)
    ∧ (mergeFunctions A B).func_code
        = dedentText (A.func_code ++ '\n' :: '\n' :: B.func_code)
    ∧ ((∀ l ∈ (A.func_code ++ '\n' :: '\n' :: B.func_code).splitOn '\n',
          wsOnly l = false) →
       marginOf ((A.func_code ++ '\n' :: '\n' :: B.func_code).splitOn '\n') = [] →
       (mergeFunctions A B).func_code = A.func_code ++ '\n' :: '\n' :: B.func_code) := by
  refine ⟨?_, rfl, ?_⟩
  · intro d
    simp [mergeFunctions, List.mem_dedup, List.mem_append]
  · intro hws hm
    show dedentText (A.func_code ++ '\n' :: '\n' :: B.func_code)
        = A.func_code ++ '\n' :: '\n' :: B.func_code
    exact dedentText_eq_self _ hws hm

/-- Witness for mergeFunctions_spec on two column-zero one-line bodies. -/
theorem mergeFunctions_spec_witness :
    (mergeFunctions { func_name := "a", func_code := "x = 1".toList, dependencies := ["p"] }
        { func_name := "a", func_code := "y = 2".toList, dependencies := ["q"] }).func_code
      = "x = 1".toList ++ '\n' :: '\n' :: "y = 2".toList :=
  (mergeFunctions_spec
      { func_name := "a", func_code := "x = 1".toList, dependencies := ["p"] }
      { func_name := "a", func_code := "y = 2".toList, dependencies := ["q"] }).2.2
    (by decide) (by decide)

/-- Claim C8: when the configuration document text cannot be parsed as
structured data (yaml.safe_load raises), get_called_pipelines returns the
empty set, get_defined_pipelines the empty map and get_defined_nodes the
empty map; all three are total functions of the parse outcome, so no
exception reaches the caller. -/
theorem config_parse_failure_yields_empty :
    ∀ (path : Text),
      get_called_pipelines (.error ()) = []
      ∧ get_defined_pipelines (.error ()) = []
      ∧ get_defined_nodes path (.error ()) = [] := by
  intro path
  exact ⟨rfl, rfl, rfl⟩

/-- Claim C3 counterexample: on an absent file, get_file_docstring and
get_dep_func have no handler around the open call, so the failure propagates
to the caller instead of yielding the absent option. -/
theorem absent_file_raises_counterexample :
    get_file_docstring (fun _ => .mk none "module" true "" 0 0 [])
        (fun _ => none) ("a.py".toList) = .error ()
    ∧ get_dep_func (fun _ => .mk none "module" true "" 0 0 [])
        (fun _ => none) ("a.py".toList) "f" = .error () := by
  constructor
  · rfl
  · show (match (none : Option Text) with
      | none => (Except.error () : Except Unit (Option Function))
      | some code => .ok (depVisit code "f"
          ((fun (_ : Text) => CNode.mk none "module" true "" 0 0 []) code))) = .error ()
    rfl

/-- Claim C3 (amended): an absent source file is a normal empty result only
for build_context, which catches the failure and returns the (empty) codebase
dictionary; get_file_docstring and get_dep_func have no handler and propagate
the file-open failure to the caller. -/
theorem absent_file_behaviour (parse : Text → CNode) (fs : Text → Option Text)
    (path : Text) (dep : String) (hfs : ∀ q, fs q = none) :
    build_context parse fs path = []
    ∧ get_file_docstring parse fs path = .error ()
    ∧ get_dep_func parse fs path dep = .error () := by
  refine ⟨?_, ?_, ?_⟩
  · simp [build_context, hfs]
  · simp [get_file_docstring, hfs]
  · simp [get_dep_func, hfs]

/-- Witness for absent_file_behaviour on the everywhere-absent file system. -/
theorem absent_file_behaviour_witness :
    build_context (fun _ => .mk none "module" true "" 0 0 [])
        (fun _ => none) ("a.py".toList) = []
    ∧ get_file_docstring (fun _ => .mk none "module" true "" 0 0 [])
        (fun _ => none) ("a.py".toList) = .error ()
    ∧ get_dep_func (fun _ => .mk none "module" true "" 0 0 [])
        (fun _ => none) ("a.py".toList) "g" = .error () :=
  absent_file_behaviour (fun _ => .mk none "module" true "" 0 0 [])
    (fun _ => none) ("a.py".toList) "g" (fun _ => rfl)

/-! ### Reachability of the defined-pipelines traversal -/

theorem dreach_trans : ∀ {a b c : Yaml}, DReach a b → DReach b c → DReach a c := by
  intro a b c hab hbc
  induction hbc with
  | refl => exact hab
  | listElem _ hy ih => exact DReach.listElem ih hy
  | mapOther _ hkv hnm ih => exact DReach.mapOther ih hkv hnm
  | mapNodes _ hkv hk ih => exact DReach.mapNodes ih hkv hk

/-! ### Dependency extraction -/

theorem depsCollectL_mem {cs : List CNode} {d : String} :
    d ∈ depsCollectL cs ↔ ∃ x ∈ cs, d ∈ depsCollect x := by
  induction cs with
  | nil => simp [depsCollectL]
  | cons c rest ih =>
    show d ∈ depsCollect c ++ depsCollectL rest ↔ _
    simp only [List.mem_append, ih]
    constructor
    · rintro (h | ⟨x, hx, hd⟩)
      · exact ⟨c, List.mem_cons_self _ _, h⟩
      · exact ⟨x, List.mem_cons_of_mem _ hx, hd⟩
    · rintro ⟨x, hx, hd⟩
      rcases List.mem_cons.mp hx with rfl | hx
      · exact Or.inl hd
      · exact Or.inr ⟨x, hx, hd⟩

theorem depsCollect_mem : ∀ (n : CNode) (d : String),
    d ∈ depsCollect n ↔ ∃ c ∈ allNodes n, c.kind = "call" ∧ callTarget c = some d := by
  intro n
  induction n using cnodeInduction with
  | h f k nm tx sr er cs ih =>
    intro d
    rw [show depsCollect (.mk f k nm tx sr er cs)
        = (if k = "call" then (callTarget (.mk f k nm tx sr er cs)).toList else [])
          ++ depsCollectL cs from rfl]
    rw [List.mem_append, depsCollectL_mem, allNodes_eq]
    constructor
    · rintro (hhead | ⟨x, hx, hdx⟩)
      · by_cases hk : k = "call"
        · rw [if_pos hk] at hhead
          refine ⟨_, List.mem_cons_self _ _, ?_, ?_⟩
          · simpa [CNode.kind] using hk
          · simpa using hhead
        · rw [if_neg hk] at hhead
          simp at hhead
      · obtain ⟨c, hc, hck, hct⟩ := (ih x hx d).mp hdx
        exact ⟨c, List.mem_cons_of_mem _ (mem_allNodesL.mpr ⟨x, hx, hc⟩), hck, hct⟩
    · rintro ⟨c, hc, hck, hct⟩
      rcases List.mem_cons.mp hc with rfl | hc
      · left
        rw [if_pos (by simpa [CNode.kind] using hck)]
        simpa using hct
      · right
        obtain ⟨x, hx, hcx⟩ := mem_allNodesL.mp hc
        exact ⟨x, hx, (ih x hx d).mpr ⟨c, hcx, hck, hct⟩⟩

/-- Claim C4: _extract_dependencies records a name exactly when some call
node anywhere in the function-definition subtree (nested function definitions
included, since the sub-traversal is unscoped) has it as its call target: a
bare identifier call records that identifier, an attribute-style call records
only the trailing attribute name; and on the parse of the scenario source
(def f with body x = g() and return x) the extracted dependencies are exactly
the set containing g. -/
theorem extract_dependencies_spec :
    (∀ (n : CNode) (d : String),
      d ∈ extract_dependencies n ↔
        ∃ c ∈ allNodes n, c.kind = "call" ∧ callTarget c = some d)
    ∧ extract_dependencies exFnDef = ["g"] := by
  constructor
  · intro n d
    rw [show extract_dependencies n = (depsCollect n).dedup from rfl,
      List.mem_dedup]
    exact depsCollect_mem n d
  · decide

/-! ### Extraction spans and code line counts -/

theorem extractVisitL_mem {code : Text} {root : CNode} {cc : Option String}
    {cs : List CNode} {F : Function} :
    F ∈ extractVisitL code root cc cs ↔ ∃ c ∈ cs, F ∈ extractVisit code root cc c := by
  induction cs with
  | nil => simp [extractVisitL]
  | cons c rest ih =>
    show F ∈ extractVisit code root cc c ++ extractVisitL code root cc rest ↔ _
    simp only [List.mem_append, ih]
    constructor
    · rintro (h | ⟨x, hx, hF⟩)
      · exact ⟨c, List.mem_cons_self _ _, h⟩
      · exact ⟨x, List.mem_cons_of_mem _ hx, hF⟩
    · rintro ⟨x, hx, hF⟩
      rcases List.mem_cons.mp hx with rfl | hx
      · exact Or.inl hF
      · exact Or.inr ⟨x, hx, hF⟩

theorem extractVisit_mem : ∀ (n : CNode) (code : Text) (root : CNode)
    (cc : Option String) (F : Function), F ∈ extractVisit code root cc n →
    ∃ nd ∈ allNodes n, nd.kind = "function_definition"
      ∧ F.func_code = extract_code code nd
      ∧ F.start_line = some (nd.startRow + 1)
      ∧ F.end_line = some (nd.endRow + 1) := by
  intro n
  induction n using cnodeInduction with
  | h f k nm tx sr er cs ih =>
    intro code root cc F hF
    by_cases hk : k = "function_definition"
    · rw [show extractVisit code root cc (.mk f k nm tx sr er cs)
          = [{ func_name := nameOf (.mk f k nm tx sr er cs)
               func_code := extract_code code (.mk f k nm tx sr er cs)
               class_name := cc
               is_method := cc.isSome
               dependencies := extract_dependencies (.mk f k nm tx sr er cs)
               imports := extract_imports code root
               params := extract_fixtures (.mk f k nm tx sr er cs)
               docstring := extract_docstring code (.mk f k nm tx sr er cs)
               start_line := some (extract_lines (.mk f k nm tx sr er cs)).1
               end_line := some (extract_lines (.mk f k nm tx sr er cs)).2 }]
          from by simp [extractVisit, hk]] at hF
      rcases List.mem_singleton.mp hF with rfl
      exact ⟨.mk f k nm tx sr er cs, self_mem_allNodes _,
        by simpa [CNode.kind] using hk, rfl, rfl, rfl⟩
    · have hstep : ∃ cc', F ∈ extractVisitL code root cc' cs := by
        by_cases hc : k = "class_definition"
        · refine ⟨some (nameOf (.mk f k nm tx sr er cs)), ?_⟩
          rw [show extractVisit code root cc (.mk f k nm tx sr er cs)
              = extractVisitL code root (some (nameOf (.mk f k nm tx sr er cs))) cs
              from by simp [extractVisit, hk, hc]] at hF
          exact hF
        · refine ⟨cc, ?_⟩
          rw [show extractVisit code root cc (.mk f k nm tx sr er cs)
              = extractVisitL code root cc cs
              from by simp [extractVisit, hk, hc]] at hF
          exact hF
      obtain ⟨cc', hF'⟩ := hstep
      obtain ⟨c, hc, hFc⟩ := extractVisitL_mem.mp hF'
      obtain ⟨nd, hnd, hndk, hcode, hs, he⟩ := ih c hc code root cc' F hFc
      refine ⟨nd, ?_, hndk, hcode, hs, he⟩
      rw [allNodes_eq]
      exact List.mem_cons_of_mem _ (mem_allNodesL.mpr ⟨c, hc, hnd⟩)

theorem dedentLines_length (ls : List Text) : (dedentLines ls).length = ls.length := by
  simp [dedentLines, blankNorm]

theorem stripMargin_no_newline {m y : Text} (h : '\n' ∉ y) : '\n' ∉ stripMargin m y := by
  unfold stripMargin
  split
  · intro hc
    exact h (List.drop_subset _ _ hc)
  · exact h

theorem dedentLines_no_newline {ls : List Text} (h : ∀ l ∈ ls, '\n' ∉ l) :
    ∀ l ∈ dedentLines ls, '\n' ∉ l := by
  intro l hl
  simp only [dedentLines, blankNorm, List.map_map, List.mem_map] at hl
  obtain ⟨x, hx, rfl⟩ := hl
  apply stripMargin_no_newline
  show '\n' ∉ (if wsOnly x = true then [] else x)
  by_cases hws : wsOnly x = true
  · simp [hws]
  · simpa [hws] using h x hx

theorem lineCount_extract_code (code : Text) (nd : CNode)
    (hse : nd.startRow ≤ nd.endRow)
    (hnl : ∀ l ∈ pySplitlines code, '\n' ∉ l) :
    lineCount (extract_code code nd) = nd.endRow + 1 - nd.startRow := by
  unfold extract_code
  have hlen : ((List.range' nd.startRow (nd.endRow + 1 - nd.startRow)).map
      (fun i => (pySplitlines code).getD i [])).length = nd.endRow + 1 - nd.startRow := by
    rw [List.length_map, List.length_range']
  set extracted := (List.range' nd.startRow (nd.endRow + 1 - nd.startRow)).map
      (fun i => (pySplitlines code).getD i []) with hextr
  have hne : extracted ≠ [] := by
    intro h0
    rw [h0] at hlen
    simp at hlen
    omega
  have hext_nl : ∀ l ∈ extracted, '\n' ∉ l := by
    intro l hl
    rw [hextr] at hl
    obtain ⟨i, _, rfl⟩ := List.mem_map.mp hl
    by_cases hil : i < (pySplitlines code).length
    · rw [List.getD_eq_get _ _ hil]
      exact hnl _ (List.get_mem _ _ _)
    · rw [List.getD_eq_default _ _ (le_of_not_lt hil)]
      simp
  have hsplit : (joinNL extracted).splitOn '\n' = extracted :=
    List.splitOn_intercalate extracted '\n' hext_nl hne
  have hstep : dedentText (joinNL extracted) = joinNL (dedentLines extracted) := by
    unfold dedentText
    rw [hsplit]
  rw [hstep]
  have hdls_ne : dedentLines extracted ≠ [] := by
    intro h0
    have hzero : extracted.length = 0 := by
      rw [← dedentLines_length extracted, h0]
      rfl
    rw [List.length_eq_zero] at hzero
    exact hne hzero
  have hdls_nl := dedentLines_no_newline hext_nl
  unfold lineCount
  rw [show joinNL (dedentLines extracted)
      = ['\n'].intercalate (dedentLines extracted) from rfl]
  rw [List.splitOn_intercalate (dedentLines extracted) '\n' hdls_nl hdls_ne]
  rw [dedentLines_length, hlen]

/-- Claim C7: every Function extracted from a parsed file whose tree has
nonempty row spans satisfies start_line <= end_line, and its code has exactly
end_line - start_line + 1 lines (the file's lines carry no embedded newline,
as str.splitlines guarantees). -/
theorem extract_info_spans (code : Text) (root : CNode)
    (hse : ∀ n ∈ allNodes root, n.startRow ≤ n.endRow)
    (hnl : ∀ l ∈ pySplitlines code, '\n' ∉ l) :
    ∀ F ∈ extract_info code root, ∃ s e, F.start_line = some s ∧ F.end_line = some e
      ∧ s ≤ e ∧ lineCount F.func_code = e - s + 1 := by
  intro F hF
  obtain ⟨c, hc, hFc⟩ := extractVisitL_mem.mp hF
  obtain ⟨nd, hnd, _, hcode, hs, he⟩ := extractVisit_mem c code root none F hFc
  have hnd_root : nd ∈ allNodes root := by
    rw [allNodes_eq]
    exact List.mem_cons_of_mem _ (mem_allNodesL.mpr ⟨c, hc, hnd⟩)
  have hse' := hse nd hnd_root
  refine ⟨nd.startRow + 1, nd.endRow + 1, hs, he, by omega, ?_⟩
  rw [hcode, lineCount_extract_code code nd hse' hnl]
  omega

/-- Witness for extract_info_spans: the first Function of the two-function
module has a two-line body. -/
theorem extract_info_spans_witness :
    lineCount ((extract_info exModuleCode exModule).headD default).func_code = 2 := by
  have h := extract_info_spans exModuleCode exModule (by decide) (by decide)
    ((extract_info exModuleCode exModule).headD default) (by decide)
  obtain ⟨s, e, hs, he, _, hlc⟩ := h
  have hs1 : ((extract_info exModuleCode exModule).headD default).start_line
      = some 1 := by decide
  have he1 : ((extract_info exModuleCode exModule).headD default).end_line
      = some 2 := by decide
  rw [hs1] at hs
  rw [he1] at he
  have hs2 : s = 1 := (Option.some.inj hs).symm
  have he2 : e = 2 := (Option.some.inj he).symm
  rw [hs2, he2] at hlc
  simpa using hlc

/-! ### Diff attribution lemmas -/

theorem foldl_addInfo_added : ∀ (l : List Line) (f : Function),
    l.foldl (fun g a => addInformation g (some a) none) f
      = { f with added_lines := f.added_lines ++ l } := by
  intro l
  induction l with
  | nil => intro f; simp
  | cons a rest ih =>
    intro f
    show rest.foldl _ (addInformation f (some a) none) = _
    rw [show addInformation f (some a) none
        = { f with added_lines := f.added_lines ++ [a] } from rfl]
    rw [ih]
    simp

theorem foldl_addInfo_removed : ∀ (l : List Line) (f : Function),
    l.foldl (fun g r => addInformation g none (some r)) f
      = { f with removed_lines := f.removed_lines ++ l } := by
  intro l
  induction l with
  | nil => intro f; simp
  | cons r rest ih =>
    intro f
    show rest.foldl _ (addInformation f none (some r)) = _
    rw [show addInformation f none (some r)
        = { f with removed_lines := f.removed_lines ++ [r] } from rfl]
    rw [ih]
    simp

theorem recordOn_eq (added removed : List Line) (aN rN : List Nat) (L : Nat)
    (f : Function) :
    recordOn added removed aN rN L f =
      if L ∈ aN then
        { f with added_lines := f.added_lines ++ added.filter (fun l => l.line_num = L) }
      else if L ∈ rN then
        { f with removed_lines := f.removed_lines ++ removed.filter (fun l => l.line_num = L) }
      else f := by
  unfold recordOn
  split
  · rw [foldl_addInfo_added]
  · split
    · rw [foldl_addInfo_removed]
    · rfl

theorem recordOn_spans (added removed : List Line) (aN rN : List Nat) (L : Nat)
    (f : Function) :
    (recordOn added removed aN rN L f).start_line = f.start_line
    ∧ (recordOn added removed aN rN L f).end_line = f.end_line := by
  rw [recordOn_eq]
  split
  · exact ⟨rfl, rfl⟩
  · split
    · exact ⟨rfl, rfl⟩
    · exact ⟨rfl, rfl⟩

theorem recordOn_records (added removed : List Line) (L Q : Nat) (f : Function) :
    recordsLine (recordOn added removed (lineNumsOf added) (lineNumsOf removed) L f) Q
      ↔ recordsLine f Q
        ∨ (Q = L ∧ (L ∈ lineNumsOf added ∨ L ∈ lineNumsOf removed)) := by
  have hfilter : ∀ (ls : List Line),
      (∃ l ∈ ls.filter (fun l => l.line_num = L), l.line_num = Q)
        ↔ (Q = L ∧ L ∈ lineNumsOf ls) := by
    intro ls
    constructor
    · rintro ⟨l, hl, rfl⟩
      have := List.mem_filter.mp hl
      refine ⟨by simpa using this.2, ?_⟩
      have hq : l.line_num = L := by simpa using this.2
      rw [← hq]
      exact List.mem_map_of_mem _ this.1
    · rintro ⟨rfl, hm⟩
      obtain ⟨l, hl, hq⟩ := List.mem_map.mp hm
      exact ⟨l, List.mem_filter.mpr ⟨hl, by simpa using hq⟩, hq⟩
  rw [recordOn_eq]
  by_cases hA : L ∈ lineNumsOf added
  · rw [if_pos hA]
    unfold recordsLine
    simp only [List.mem_append]
    constructor
    · rintro (⟨l, hl | hl, hq⟩ | h)
      · exact Or.inl (Or.inl ⟨l, hl, hq⟩)
      · exact Or.inr ⟨(hfilter added).mp ⟨l, hl, hq⟩ |>.1, Or.inl hA⟩
      · exact Or.inl (Or.inr h)
    · rintro ((⟨l, hl, hq⟩ | h) | ⟨rfl, _⟩)
      · exact Or.inl ⟨l, Or.inl hl, hq⟩
      · exact Or.inr h
      · obtain ⟨l, hl, hq⟩ := (hfilter added).mpr ⟨rfl, hA⟩
        exact Or.inl ⟨l, Or.inr hl, hq⟩
  · rw [if_neg hA]
    by_cases hR : L ∈ lineNumsOf removed
    · rw [if_pos hR]
      unfold recordsLine
      simp only [List.mem_append]
      constructor
      · rintro (h | ⟨l, hl | hl, hq⟩)
        · exact Or.inl (Or.inl h)
        · exact Or.inl (Or.inr ⟨l, hl, hq⟩)
        · exact Or.inr ⟨(hfilter removed).mp ⟨l, hl, hq⟩ |>.1, Or.inr hR⟩
      · rintro ((h | ⟨l, hl, hq⟩) | ⟨rfl, _⟩)
        · exact Or.inl h
        · exact Or.inr ⟨l, Or.inl hl, hq⟩
        · obtain ⟨l, hl, hq⟩ := (hfilter removed).mpr ⟨rfl, hR⟩
          exact Or.inr ⟨l, Or.inr hl, hq⟩
    · rw [if_neg hR]
      constructor
      · exact Or.inl
      · rintro (h | ⟨rfl, hA' | hR'⟩)
        · exact h
        · exact absurd hA' hA
        · exact absurd hR' hR

theorem recordOn_removed_sub (added removed : List Line) (rN : List Nat)
    (m : Nat) (f : Function) :
    ∀ l ∈ (recordOn added removed (lineNumsOf added) rN m f).removed_lines,
      l ∈ f.removed_lines ∨ (l.line_num = m ∧ m ∉ lineNumsOf added) := by
  intro l hl
  rw [recordOn_eq] at hl
  by_cases hA : m ∈ lineNumsOf added
  · rw [if_pos hA] at hl
    exact Or.inl hl
  · rw [if_neg hA] at hl
    by_cases hR : m ∈ rN
    · rw [if_pos hR] at hl
      rcases List.mem_append.mp hl with h | h
      · exact Or.inl h
      · have := List.mem_filter.mp h
        exact Or.inr ⟨by simpa using this.2, hA⟩
    · rw [if_neg hR] at hl
      exact Or.inl hl

theorem attributeLine_length (added removed : List Line) (aN rN : List Nat)
    (L : Nat) : ∀ fs : List Function,
    (attributeLine added removed aN rN L fs).length = fs.length := by
  intro fs
  induction fs with
  | nil => rfl
  | cons f rest ih =>
    unfold attributeLine
    split
    · simp
    · simpa using ih

theorem attributeLine_get? (added removed : List Line) (aN rN : List Nat)
    (L : Nat) : ∀ (fs : List Function) (i : Nat),
    (attributeLine added removed aN rN L fs).get? i =
      if fs.findIdx? (fun f => spanContains f L) = some i then
        (fs.get? i).map (recordOn added removed aN rN L)
      else fs.get? i := by
  intro fs
  induction fs with
  | nil =>
    intro i
    rw [if_neg (by simp [List.findIdx?])]
    rfl
  | cons f rest ih =>
    intro i
    unfold attributeLine
    by_cases hp : spanContains f L = true
    · rw [if_pos hp]
      have hidx : (f :: rest).findIdx? (fun g => spanContains g L) = some 0 := by
        rw [List.findIdx?_cons, if_pos hp]
      rw [hidx]
      cases i with
      | zero => simp
      | succ j =>
        rw [if_neg (by simp)]
        simp [List.get?_cons_succ]
    · rw [if_neg hp]
      have hidx : (f :: rest).findIdx? (fun g => spanContains g L)
          = (rest.findIdx? (fun g => spanContains g L)).map (· + 1) := by
        rw [List.findIdx?_cons, if_neg hp, List.findIdx?_succ]
      rw [hidx]
      cases i with
      | zero =>
        have : ((rest.findIdx? (fun g => spanContains g L)).map (· + 1)
            = some 0) = False := by
          simp only [eq_iff_iff, iff_false]
          intro h
          rcases Option.map_eq_some'.mp h with ⟨j, _, hj⟩
          omega
        rw [if_neg (by rw [this]; exact id)]
        simp [List.get?_cons_zero]
      | succ j =>
        have hshift : ((rest.findIdx? (fun g => spanContains g L)).map (· + 1)
            = some (j + 1)) ↔ rest.findIdx? (fun g => spanContains g L) = some j := by
          constructor
          · intro h
            rcases Option.map_eq_some'.mp h with ⟨j', hj', heq⟩
            have : j' = j := by omega
            rw [← this]
            exact hj'
          · intro h
            rw [h]
            rfl
        simp only [List.get?_cons_succ]
        rw [ih j]
        by_cases hj : rest.findIdx? (fun g => spanContains g L) = some j
        · rw [if_pos hj, if_pos (hshift.mpr hj)]
        · rw [if_neg hj, if_neg (fun h => hj (hshift.mp h))]

theorem spanContains_congr {f g : Function} (hs : f.start_line = g.start_line)
    (he : f.end_line = g.end_line) (L : Nat) :
    spanContains f L = spanContains g L := by
  unfold spanContains
  rw [hs, he]

theorem findIdx?_span_congr (L : Nat) : ∀ (xs ys : List Function) (s : Nat),
    (∀ i, (xs.get? i).map (fun F => (F.start_line, F.end_line))
        = (ys.get? i).map (fun F => (F.start_line, F.end_line))) →
    List.findIdx? (fun f => spanContains f L) xs s
      = List.findIdx? (fun f => spanContains f L) ys s := by
  intro xs
  induction xs with
  | nil =>
    intro ys s h
    cases ys with
    | nil => rfl
    | cons y ys' =>
      have := h 0
      simp at this
  | cons x xs' ih =>
    intro ys s h
    cases ys with
    | nil =>
      have := h 0
      simp at this
    | cons y ys' =>
      have h0 := h 0
      simp only [List.get?_cons_zero, Option.map_some'] at h0
      have hx : spanContains x L = spanContains y L :=
        spanContains_congr (congrArg Prod.fst (Option.some.inj h0))
          (congrArg Prod.snd (Option.some.inj h0)) L
      rw [List.findIdx?_cons, List.findIdx?_cons, hx]
      by_cases hy : spanContains y L = true
      · rw [if_pos hy, if_pos hy]
      · rw [if_neg hy, if_neg hy]
        exact ih ys' (s + 1) (fun i => by
          have := h (i + 1)
          simpa [List.get?_cons_succ] using this)

theorem attributeLine_spans (added removed : List Line) (aN rN : List Nat)
    (L : Nat) (fs : List Function) (i : Nat) :
    ((attributeLine added removed aN rN L fs).get? i).map
        (fun F => (F.start_line, F.end_line))
      = (fs.get? i).map (fun F => (F.start_line, F.end_line)) := by
  rw [attributeLine_get?]
  split
  · rw [Option.map_map]
    cases fs.get? i with
    | none => rfl
    | some F =>
      simp only [Option.map_some', Function.comp_apply]
      rw [(recordOn_spans added removed aN rN L F).1,
        (recordOn_spans added removed aN rN L F).2]
  · rfl

theorem attributeLine_removed_sub (added removed : List Line) (rN : List Nat)
    (m : Nat) (fs : List Function) (i : Nat) (F F' : Function)
    (hF : fs.get? i = some F)
    (hF' : (attributeLine added removed (lineNumsOf added) rN m fs).get? i = some F') :
    ∀ l ∈ F'.removed_lines,
      l ∈ F.removed_lines ∨ (l.line_num = m ∧ m ∉ lineNumsOf added) := by
  rw [attributeLine_get?] at hF'
  intro l hl
  by_cases hidx : fs.findIdx? (fun f => spanContains f m) = some i
  · rw [if_pos hidx, hF] at hF'
    have hF'eq : F' = recordOn added removed (lineNumsOf added) rN m F :=
      (Option.some.inj hF').symm
    rw [hF'eq] at hl
    exact recordOn_removed_sub added removed rN m F l hl
  · rw [if_neg hidx, hF] at hF'
    rw [(Option.some.inj hF').symm] at hl
    exact Or.inl hl

theorem foldAttr_length (added removed : List Line) (aN rN : List Nat) :
    ∀ (ms : List Nat) (fs : List Function),
    (ms.foldl (fun gs L => attributeLine added removed aN rN L gs) fs).length
      = fs.length := by
  intro ms
  induction ms with
  | nil => intro fs; rfl
  | cons m rest ih =>
    intro fs
    show (rest.foldl _ (attributeLine added removed aN rN m fs)).length = _
    rw [ih, attributeLine_length]

theorem foldAttr_spans (added removed : List Line) (aN rN : List Nat) :
    ∀ (ms : List Nat) (fs : List Function) (i : Nat),
    ((ms.foldl (fun gs L => attributeLine added removed aN rN L gs) fs).get? i).map
        (fun F => (F.start_line, F.end_line))
      = (fs.get? i).map (fun F => (F.start_line, F.end_line)) := by
  intro ms
  induction ms with
  | nil => intro fs i; rfl
  | cons m rest ih =>
    intro fs i
    show ((rest.foldl _ (attributeLine added removed aN rN m fs)).get? i).map _ = _
    rw [ih, attributeLine_spans]

theorem foldAttr_findIdx (added removed : List Line) (aN rN : List Nat)
    (ms : List Nat) (fs : List Function) (Q : Nat) :
    (ms.foldl (fun gs L => attributeLine added removed aN rN L gs) fs).findIdx?
        (fun f => spanContains f Q)
      = fs.findIdx? (fun f => spanContains f Q) :=
  findIdx?_span_congr Q _ fs 0 (foldAttr_spans added removed aN rN ms fs)

theorem foldAttr_records (added removed : List Line) :
    ∀ (ms : List Nat) (fs : List Function) (i : Nat) (F F' : Function),
    fs.get? i = some F →
    (ms.foldl (fun gs L => attributeLine added removed (lineNumsOf added)
        (lineNumsOf removed) L gs) fs).get? i = some F' →
    ∀ Q, recordsLine F' Q ↔
      recordsLine F Q
      ∨ (Q ∈ ms ∧ (Q ∈ lineNumsOf added ∨ Q ∈ lineNumsOf removed)
          ∧ fs.findIdx? (fun f => spanContains f Q) = some i) := by
  intro ms
  induction ms with
  | nil =>
    intro fs i F F' hF hF' Q
    simp only [List.foldl_nil] at hF'
    rw [hF] at hF'
    rw [(Option.some.inj hF').symm]
    simp
  | cons m rest ih =>
    intro fs i F F' hF hF' Q
    have hfold : (rest.foldl (fun gs L => attributeLine added removed (lineNumsOf added)
        (lineNumsOf removed) L gs) (attributeLine added removed (lineNumsOf added)
        (lineNumsOf removed) m fs)).get? i = some F' := hF'
    have hfidx : (attributeLine added removed (lineNumsOf added) (lineNumsOf removed)
          m fs).findIdx? (fun f => spanContains f Q)
        = fs.findIdx? (fun f => spanContains f Q) :=
      findIdx?_span_congr Q _ fs 0
        (fun j => attributeLine_spans added removed (lineNumsOf added)
          (lineNumsOf removed) m fs j)
    have hstep := attributeLine_get? added removed (lineNumsOf added)
      (lineNumsOf removed) m fs i
    by_cases hidx : fs.findIdx? (fun f => spanContains f m) = some i
    · rw [if_pos hidx, hF, Option.map_some'] at hstep
      have hrec := ih _ i _ F' hstep hfold Q
      rw [hfidx, recordOn_records] at hrec
      rw [hrec]
      constructor
      · rintro ((h | ⟨rfl, hmm⟩) | ⟨hQrest, hcond, hD⟩)
        · exact Or.inl h
        · exact Or.inr ⟨List.mem_cons_self _ _, hmm, hidx⟩
        · exact Or.inr ⟨List.mem_cons_of_mem _ hQrest, hcond, hD⟩
      · rintro (h | ⟨hQ, hcond, hD⟩)
        · exact Or.inl (Or.inl h)
        · rcases List.mem_cons.mp hQ with rfl | hQr
          · exact Or.inl (Or.inr ⟨rfl, hcond⟩)
          · exact Or.inr ⟨hQr, hcond, hD⟩
    · rw [if_neg hidx, hF] at hstep
      have hrec := ih _ i F F' hstep hfold Q
      rw [hfidx] at hrec
      rw [hrec]
      constructor
      · rintro (h | ⟨hQr, hcond, hD⟩)
        · exact Or.inl h
        · exact Or.inr ⟨List.mem_cons_of_mem _ hQr, hcond, hD⟩
      · rintro (h | ⟨hQ, hcond, hD⟩)
        · exact Or.inl h
        · rcases List.mem_cons.mp hQ with rfl | hQr
          · exact absurd hD hidx
          · exact Or.inr ⟨hQr, hcond, hD⟩

theorem foldAttr_removed_sub (added removed : List Line) :
    ∀ (ms : List Nat) (fs : List Function) (i : Nat) (F F' : Function),
    fs.get? i = some F →
    (ms.foldl (fun gs L => attributeLine added removed (lineNumsOf added)
        (lineNumsOf removed) L gs) fs).get? i = some F' →
    ∀ l ∈ F'.removed_lines,
      l ∈ F.removed_lines ∨ ∃ m ∈ ms, l.line_num = m ∧ m ∉ lineNumsOf added := by
  intro ms
  induction ms with
  | nil =>
    intro fs i F F' hF hF' l hl
    simp only [List.foldl_nil] at hF'
    rw [hF] at hF'
    rw [(Option.some.inj hF').symm] at hl
    exact Or.inl hl
  | cons m rest ih =>
    intro fs i F F' hF hF' l hl
    have hstep := attributeLine_get? added removed (lineNumsOf added)
      (lineNumsOf removed) m fs i
    by_cases hidx : fs.findIdx? (fun f => spanContains f m) = some i
    · rw [if_pos hidx, hF, Option.map_some'] at hstep
      rcases ih _ i _ F' hstep hF' l hl with h | ⟨m', hm', hnum⟩
      · rcases recordOn_removed_sub added removed (lineNumsOf removed) m F l h
          with h2 | h2
        · exact Or.inl h2
        · exact Or.inr ⟨m, List.mem_cons_self _ _, h2⟩
      · exact Or.inr ⟨m', List.mem_cons_of_mem _ hm', hnum⟩
    · rw [if_neg hidx, hF] at hstep
      rcases ih _ i F F' hstep hF' l hl with h | ⟨m', hm', hnum⟩
      · exact Or.inl h
      · exact Or.inr ⟨m', List.mem_cons_of_mem _ hm', hnum⟩

/-- Claim C1: for every changed line number (union of added and removed line
numbers), starting from freshly extracted functions (no recorded lines yet),
the line is recorded exactly on the first function in list order whose
inclusive span contains it, and on no other function; when no function's span
contains it, it is recorded nowhere. -/
theorem analyse_diff_first_match (added removed : List Line) (fns : List Function)
    (hfresh : ∀ f ∈ fns, f.added_lines = [] ∧ f.removed_lines = []) :
    ∀ L ∈ lineNumsOf added ++ lineNumsOf removed,
    ∀ i (hi : i < (analyse_diff added removed fns).length),
      (recordsLine ((analyse_diff added removed fns).get ⟨i, hi⟩) L ↔
        fns.findIdx? (fun f => spanContains f L) = some i) := by
  intro L hL i hi
  have hlen : (analyse_diff added removed fns).length = fns.length :=
    foldAttr_length added removed (lineNumsOf added) (lineNumsOf removed)
      ((lineNumsOf added ++ lineNumsOf removed).dedup) fns
  have hifns : i < fns.length := hlen ▸ hi
  have hF : fns.get? i = some (fns.get ⟨i, hifns⟩) := List.get?_eq_get hifns
  have hF' : (analyse_diff added removed fns).get? i
      = some ((analyse_diff added removed fns).get ⟨i, hi⟩) := List.get?_eq_get hi
  have hrec := foldAttr_records added removed
    ((lineNumsOf added ++ lineNumsOf removed).dedup) fns i _ _ hF hF' L
  rw [hrec]
  have hfr := hfresh _ (List.get_mem fns i hifns)
  have hnorec : ¬ recordsLine (fns.get ⟨i, hifns⟩) L := by
    unfold recordsLine
    rw [hfr.1, hfr.2]
    simp
  constructor
  · rintro (h | ⟨_, _, hD⟩)
    · exact absurd h hnorec
    · exact hD
  · intro hD
    exact Or.inr ⟨List.mem_dedup.mpr hL, List.mem_append.mp hL, hD⟩

/-- Witness for analyse_diff_first_match: one added Line(2) lands on the
single function spanning lines 1-3. -/
theorem analyse_diff_first_match_witness :
    recordsLine ((analyse_diff [⟨2, "    x = g()".toList⟩] []
        [{ func_name := "f", func_code := [], start_line := some 1,
           end_line := some 3 }]).get ⟨0, by decide⟩) 2 :=
  (analyse_diff_first_match [⟨2, "    x = g()".toList⟩] []
      [{ func_name := "f", func_code := [], start_line := some 1,
         end_line := some 3 }]
      (by decide) 2 (by decide) 0 (by decide)).mpr (by decide)

/-- Claim C10: a changed line number present in both the added and the
removed line lists is recorded only as an added line: no removed Line with
that number is recorded on any function, and the first function whose span
contains the number receives it among its added lines. -/
theorem analyse_diff_added_priority (added removed : List Line)
    (fns : List Function) (L : Nat)
    (hfresh : ∀ f ∈ fns, f.added_lines = [] ∧ f.removed_lines = [])
    (hA : L ∈ lineNumsOf added) (hR : L ∈ lineNumsOf removed) :
    (∀ F ∈ analyse_diff added removed fns, ∀ l ∈ F.removed_lines, l.line_num ≠ L)
    ∧ (∀ i (hi : i < (analyse_diff added removed fns).length),
        fns.findIdx? (fun f => spanContains f L) = some i →
        ∃ l ∈ ((analyse_diff added removed fns).get ⟨i, hi⟩).added_lines,
          l.line_num = L) := by
  have hlen : (analyse_diff added removed fns).length = fns.length :=
    foldAttr_length added removed (lineNumsOf added) (lineNumsOf removed)
      ((lineNumsOf added ++ lineNumsOf removed).dedup) fns
  constructor
  · intro F hFmem l hl
    obtain ⟨j, hj⟩ := List.mem_iff_get?.mp hFmem
    obtain ⟨hjlt, hFj⟩ := List.get?_eq_some.mp hj
    have hjfns : j < fns.length := hlen ▸ hjlt
    have hFj' : fns.get? j = some (fns.get ⟨j, hjfns⟩) := List.get?_eq_get hjfns
    have hsub := foldAttr_removed_sub added removed
      ((lineNumsOf added ++ lineNumsOf removed).dedup) fns j _ F hFj' hj l hl
    rcases hsub with h | ⟨m, _, hnum, hmnotA⟩
    · rw [(hfresh _ (List.get_mem fns j hjfns)).2] at h
      exact absurd h (List.not_mem_nil l)
    · intro hlL
      have hmL : m = L := by rw [← hnum]; exact hlL
      exact hmnotA (by rw [hmL]; exact hA)
  · intro i hi hD
    have hifns : i < fns.length := hlen ▸ hi
    have hF : fns.get? i = some (fns.get ⟨i, hifns⟩) := List.get?_eq_get hifns
    have hF' : (analyse_diff added removed fns).get? i
        = some ((analyse_diff added removed fns).get ⟨i, hi⟩) := List.get?_eq_get hi
    have hrec := foldAttr_records added removed
      ((lineNumsOf added ++ lineNumsOf removed).dedup) fns i _ _ hF hF' L
    have hfr := hfresh _ (List.get_mem fns i hifns)
    have hrecL : recordsLine ((analyse_diff added removed fns).get ⟨i, hi⟩) L := by
      rw [hrec]
      exact Or.inr ⟨List.mem_dedup.mpr (List.mem_append.mpr (Or.inl hA)),
        Or.inl hA, hD⟩
    unfold recordsLine at hrecL
    rcases hrecL with h | ⟨l, hl, hnum⟩
    · exact h
    · have hsub := foldAttr_removed_sub added removed
        ((lineNumsOf added ++ lineNumsOf removed).dedup) fns i _ _ hF hF' l hl
      rcases hsub with h2 | ⟨m, _, hnum2, hmnotA⟩
      · rw [hfr.2] at h2
        exact absurd h2 (List.not_mem_nil l)
      · have hmL : m = L := by rw [← hnum2]; exact hnum
        exact absurd (show m ∈ lineNumsOf added by rw [hmL]; exact hA) hmnotA

/-- Witness for analyse_diff_added_priority: line 2 present as both added and
removed; the containing function's added lines are nonempty. -/
theorem analyse_diff_added_priority_witness :
    ((analyse_diff [⟨2, "new".toList⟩] [⟨2, "old".toList⟩]
        [{ func_name := "f", func_code := [], start_line := some 1,
           end_line := some 3 }]).get ⟨0, by decide⟩).added_lines ≠ [] := by
  have h := (analyse_diff_added_priority [⟨2, "new".toList⟩] [⟨2, "old".toList⟩]
      [{ func_name := "f", func_code := [], start_line := some 1,
         end_line := some 3 }] 2
      (by decide) (by decide) (by decide)).2 0 (by decide) (by decide)
  obtain ⟨l, hl, _⟩ := h
  intro h0
  rw [h0] at hl
  exact List.not_mem_nil l hl

/-! ### Tree well-formedness lemmas -/

theorem wfNode_parts {f : Option String} {k : String} {nm : Bool} {tx : String}
    {sr er : Nat} {cs : List CNode}
    (h : wfNode (.mk f k nm tx sr er cs) = true) :
    sr ≤ er
    ∧ (∀ c ∈ cs, sr ≤ c.startRow ∧ c.endRow ≤ er)
    ∧ (k = "function_definition" →
        ∀ d ∈ allNodesL cs, d.kind = "function_definition" → sr < d.startRow)
    ∧ sibOk cs = true
    ∧ wfNodeL cs = true := by
  rw [show wfNode (.mk f k nm tx sr er cs)
      = (decide (sr ≤ er)
        && cs.all (fun c => decide (sr ≤ c.startRow) && decide (c.endRow ≤ er))
        && (!(decide (k = "function_definition"))
            || (allNodesL cs).all
                 (fun d => !(decide (d.kind = "function_definition"))
                   || decide (sr < d.startRow)))
        && sibOk cs && wfNodeL cs) from rfl] at h
  simp only [Bool.and_eq_true, Bool.or_eq_true, Bool.not_eq_eq_eq_not, Bool.not_true,
    List.all_eq_true, decide_eq_true_eq, decide_eq_false_iff_not] at h
  obtain ⟨⟨⟨⟨h1, h2⟩, h3⟩, h4⟩, h5⟩ := h
  refine ⟨h1, fun c hc => h2 c hc, ?_, h4, h5⟩
  intro hk d hd hdk
  rcases h3 with h3 | h3
  · exact absurd hk h3
  · rcases h3 d hd with h6 | h6
    · exact absurd hdk h6
    · exact h6

theorem sibOk_parts {c : CNode} {rest : List CNode} (h : sibOk (c :: rest) = true) :
    (∀ d ∈ rest, hasFnDef c = true → hasFnDef d = true → c.endRow < d.startRow)
    ∧ sibOk rest = true := by
  rw [show sibOk (c :: rest)
      = (rest.all (fun d => !hasFnDef c || !hasFnDef d
          || decide (c.endRow < d.startRow)) && sibOk rest) from rfl] at h
  simp only [Bool.and_eq_true, List.all_eq_true, Bool.or_eq_true,
    Bool.not_eq_eq_eq_not, Bool.not_true, decide_eq_true_eq] at h
  obtain ⟨h1, h2⟩ := h
  refine ⟨?_, h2⟩
  intro d hd hc hdf
  rcases h1 d hd with (h3 | h3) | h3
  · rw [hc] at h3
    exact absurd h3 (by simp)
  · rw [hdf] at h3
    exact absurd h3 (by simp)
  · exact h3

theorem wfNodeL_mem : ∀ {cs : List CNode}, wfNodeL cs = true →
    ∀ c ∈ cs, wfNode c = true := by
  intro cs
  induction cs with
  | nil => intro _ c hc; simp at hc
  | cons x rest ih =>
    intro h c hc
    rw [show wfNodeL (x :: rest) = (wfNode x && wfNodeL rest) from rfl] at h
    simp only [Bool.and_eq_true] at h
    obtain ⟨hx, hrest⟩ := h
    rcases List.mem_cons.mp hc with rfl | hc
    · exact hx
    · exact ih hrest c hc

theorem wf_sr_le_er {n : CNode} (h : wfNode n = true) : n.startRow ≤ n.endRow := by
  cases n with
  | mk f k nm tx sr er cs => exact (wfNode_parts h).1

theorem wf_allNodes : ∀ (n : CNode), wfNode n = true →
    ∀ m ∈ allNodes n, wfNode m = true := by
  intro n
  induction n using cnodeInduction with
  | h f k nm tx sr er cs ih =>
    intro hwf m hm
    rw [allNodes_eq] at hm
    rcases List.mem_cons.mp hm with rfl | hm2
    · exact hwf
    · obtain ⟨c, hc, hmc⟩ := mem_allNodesL.mp hm2
      exact ih c hc (wfNodeL_mem (wfNode_parts hwf).2.2.2.2 c hc) m hmc

theorem allNodes_bounds : ∀ (n : CNode), wfNode n = true →
    ∀ m ∈ allNodes n, n.startRow ≤ m.startRow ∧ m.endRow ≤ n.endRow := by
  intro n
  induction n using cnodeInduction with
  | h f k nm tx sr er cs ih =>
    intro hwf m hm
    rw [allNodes_eq] at hm
    rcases List.mem_cons.mp hm with rfl | hm2
    · exact ⟨le_refl _, le_refl _⟩
    · obtain ⟨c, hc, hmc⟩ := mem_allNodesL.mp hm2
      have hcb := (wfNode_parts hwf).2.1 c hc
      have hib := ih c hc (wfNodeL_mem (wfNode_parts hwf).2.2.2.2 c hc) m hmc
      exact ⟨le_trans hcb.1 hib.1, le_trans hib.2 hcb.2⟩

theorem sibOk_disjoint : ∀ (cs : List CNode), sibOk cs = true →
    ∀ c ∈ cs, ∀ d ∈ cs, c ≠ d → hasFnDef c = true → hasFnDef d = true →
      (c.endRow < d.startRow ∨ d.endRow < c.startRow) := by
  intro cs
  induction cs with
  | nil => intro _ c hc; simp at hc
  | cons x rest ih =>
    intro h c hc d hd hne hcf hdf
    obtain ⟨hx, hrest⟩ := sibOk_parts h
    rcases List.mem_cons.mp hc with rfl | hc2
    · rcases List.mem_cons.mp hd with rfl | hd2
      · exact absurd rfl hne
      · exact Or.inl (hx d hd2 hcf hdf)
    · rcases List.mem_cons.mp hd with rfl | hd2
      · exact Or.inr (hx c hc2 hdf hcf)
      · exact ih hrest c hc2 d hd2 hne hcf hdf

/-! ### Emitted functions occupy disjoint, non-nested spans -/

theorem extractVisitL_pairwise (code : Text) (root : CNode) :
    ∀ (cs : List CNode) (cc : Option String),
    (∀ c ∈ cs, ∀ cc2, wfNode c = true →
      List.Pairwise (fun F G => ∀ e1 s2, F.end_line = some e1 →
        G.start_line = some s2 → e1 < s2) (extractVisit code root cc2 c)) →
    (∀ c ∈ cs, wfNode c = true) →
    sibOk cs = true →
    List.Pairwise (fun F G => ∀ e1 s2, F.end_line = some e1 →
      G.start_line = some s2 → e1 < s2) (extractVisitL code root cc cs) := by
  intro cs
  induction cs with
  | nil => intro cc _ _ _; exact List.Pairwise.nil
  | cons c rest ih =>
    intro cc hIH hwfall hsib
    obtain ⟨hx, hrest⟩ := sibOk_parts hsib
    show List.Pairwise _ (extractVisit code root cc c ++ extractVisitL code root cc rest)
    rw [List.pairwise_append]
    refine ⟨hIH c (List.mem_cons_self _ _) cc (hwfall c (List.mem_cons_self _ _)),
      ih cc (fun x hx2 => hIH x (List.mem_cons_of_mem _ hx2))
        (fun x hx2 => hwfall x (List.mem_cons_of_mem _ hx2)) hrest, ?_⟩
    intro F hF G hG
    obtain ⟨c2, hc2, hG2⟩ := extractVisitL_mem.mp hG
    obtain ⟨nd, hnd, hndk, _, hnds, hnde⟩ := extractVisit_mem c code root cc F hF
    obtain ⟨nd2, hnd2, hndk2, _, hnds2, hnde2⟩ := extractVisit_mem c2 code root cc G hG2
    intro e1 s2 hFe hGs
    rw [hnde] at hFe
    rw [hnds2] at hGs
    have he1 : nd.endRow + 1 = e1 := Option.some.inj hFe
    have hs2 : nd2.startRow + 1 = s2 := Option.some.inj hGs
    have hdis : c.endRow < c2.startRow :=
      hx c2 hc2 (hasFnDef_of_mem c nd hnd hndk) (hasFnDef_of_mem c2 nd2 hnd2 hndk2)
    have hb1 : nd.endRow ≤ c.endRow :=
      (allNodes_bounds c (hwfall c (List.mem_cons_self _ _)) nd hnd).2
    have hb2 : c2.startRow ≤ nd2.startRow :=
      (allNodes_bounds c2 (hwfall c2 (List.mem_cons_of_mem _ hc2)) nd2 hnd2).1
    omega

theorem extractVisit_pairwise (code : Text) (root : CNode) : ∀ (n : CNode)
    (cc : Option String), wfNode n = true →
    List.Pairwise (fun F G => ∀ e1 s2, F.end_line = some e1 →
      G.start_line = some s2 → e1 < s2) (extractVisit code root cc n) := by
  intro n
  induction n using cnodeInduction with
  | h f k nm tx sr er cs ih =>
    intro cc hwf
    obtain ⟨_, _, _, hsib, hwfl⟩ := wfNode_parts hwf
    have hwfall := wfNodeL_mem hwfl
    by_cases hk : k = "function_definition"
    · rw [show extractVisit code root cc (.mk f k nm tx sr er cs)
          = [{ func_name := nameOf (.mk f k nm tx sr er cs)
               func_code := extract_code code (.mk f k nm tx sr er cs)
               class_name := cc
               is_method := cc.isSome
               dependencies := extract_dependencies (.mk f k nm tx sr er cs)
               imports := extract_imports code root
               params := extract_fixtures (.mk f k nm tx sr er cs)
               docstring := extract_docstring code (.mk f k nm tx sr er cs)
               start_line := some (extract_lines (.mk f k nm tx sr er cs)).1
               end_line := some (extract_lines (.mk f k nm tx sr er cs)).2 }]
          from by simp [extractVisit, hk]]
      simp
    · by_cases hc : k = "class_definition"
      · rw [show extractVisit code root cc (.mk f k nm tx sr er cs)
            = extractVisitL code root (some (nameOf (.mk f k nm tx sr er cs))) cs
            from by simp [extractVisit, hk, hc]]
        exact extractVisitL_pairwise code root cs _
          (fun x hx2 cc2 hwfc => ih x hx2 cc2 hwfc) hwfall hsib
      · rw [show extractVisit code root cc (.mk f k nm tx sr er cs)
            = extractVisitL code root cc cs
            from by simp [extractVisit, hk, hc]]
        exact extractVisitL_pairwise code root cs _
          (fun x hx2 cc2 hwfc => ih x hx2 cc2 hwfc) hwfall hsib

theorem extractVisit_no_nested (code : Text) (root : CNode) : ∀ (n : CNode)
    (cc : Option String), wfNode n = true →
    ∀ m ∈ allNodes n, m.kind = "function_definition" →
    ∀ q ∈ allNodesL m.children, q.kind = "function_definition" →
    ∀ F ∈ extractVisit code root cc n, F.start_line ≠ some (q.startRow + 1) := by
  intro n
  induction n using cnodeInduction with
  | h f k nm tx sr er cs ih =>
    intro cc hwf m hm hmk q hq hqk F hF
    obtain ⟨hse, hbounds, hnest, hsib, hwfl⟩ := wfNode_parts hwf
    by_cases hk : k = "function_definition"
    · rw [show extractVisit code root cc (.mk f k nm tx sr er cs)
          = [{ func_name := nameOf (.mk f k nm tx sr er cs)
               func_code := extract_code code (.mk f k nm tx sr er cs)
               class_name := cc
               is_method := cc.isSome
               dependencies := extract_dependencies (.mk f k nm tx sr er cs)
               imports := extract_imports code root
               params := extract_fixtures (.mk f k nm tx sr er cs)
               docstring := extract_docstring code (.mk f k nm tx sr er cs)
               start_line := some (extract_lines (.mk f k nm tx sr er cs)).1
               end_line := some (extract_lines (.mk f k nm tx sr er cs)).2 }]
          from by simp [extractVisit, hk]] at hF
      rcases List.mem_singleton.mp hF with rfl
      have hq_in_cs : q ∈ allNodesL cs := by
        rw [allNodes_eq] at hm
        rcases List.mem_cons.mp hm with rfl | hm2
        · simpa [CNode.children] using hq
        · obtain ⟨x, hx, hmx⟩ := mem_allNodesL.mp hm2
          have hq_in_m : q ∈ allNodes m := by
            rw [allNodes_eq]
            exact List.mem_cons_of_mem _ hq
          exact mem_allNodesL.mpr ⟨x, hx, allNodes_trans x m q hmx hq_in_m⟩
      have hlt := hnest hk q hq_in_cs hqk
      intro hcontra
      have h2 : sr + 1 = q.startRow + 1 := Option.some.inj hcontra
      omega
    · have hstep : ∃ cc', F ∈ extractVisitL code root cc' cs := by
        by_cases hc : k = "class_definition"
        · refine ⟨some (nameOf (.mk f k nm tx sr er cs)), ?_⟩
          rw [show extractVisit code root cc (.mk f k nm tx sr er cs)
              = extractVisitL code root (some (nameOf (.mk f k nm tx sr er cs))) cs
              from by simp [extractVisit, hk, hc]] at hF
          exact hF
        · refine ⟨cc, ?_⟩
          rw [show extractVisit code root cc (.mk f k nm tx sr er cs)
              = extractVisitL code root cc cs
              from by simp [extractVisit, hk, hc]] at hF
          exact hF
      obtain ⟨cc', hFL⟩ := hstep
      obtain ⟨c, hc, hFc⟩ := extractVisitL_mem.mp hFL
      have hm_cs : m ∈ allNodesL cs := by
        rw [allNodes_eq] at hm
        rcases List.mem_cons.mp hm with rfl | hm2
        · exact absurd (show k = "function_definition" from by
            simpa [CNode.kind] using hmk) hk
        · exact hm2
      obtain ⟨c2, hc2, hmc2⟩ := mem_allNodesL.mp hm_cs
      by_cases hmc : m ∈ allNodes c
      · exact ih c hc cc' (wfNodeL_mem hwfl c hc) m hmc hmk q hq hqk F hFc
      · have hcne : c ≠ c2 := fun he => hmc (he ▸ hmc2)
        obtain ⟨nd, hnd, hndk, _, hnds, _⟩ := extractVisit_mem c code root cc' F hFc
        have hwfc := wfNodeL_mem hwfl c hc
        have hwfc2 := wfNodeL_mem hwfl c2 hc2
        have hcf : hasFnDef c = true := hasFnDef_of_mem c nd hnd hndk
        have hcf2 : hasFnDef c2 = true := hasFnDef_of_mem c2 m hmc2 hmk
        have hdisj := sibOk_disjoint cs hsib c hc c2 hc2 hcne hcf hcf2
        have hbnd : c.startRow ≤ nd.startRow ∧ nd.endRow ≤ c.endRow :=
          allNodes_bounds c hwfc nd hnd
        have hnd_se : nd.startRow ≤ nd.endRow := wf_sr_le_er (wf_allNodes c hwfc nd hnd)
        have hq_in_m : q ∈ allNodes m := by
          rw [allNodes_eq]
          exact List.mem_cons_of_mem _ hq
        have hwfm := wf_allNodes c2 hwfc2 m hmc2
        have hbm : c2.startRow ≤ m.startRow ∧ m.endRow ≤ c2.endRow :=
          allNodes_bounds c2 hwfc2 m hmc2
        have hbq : m.startRow ≤ q.startRow ∧ q.endRow ≤ m.endRow :=
          allNodes_bounds m hwfm q hq_in_m
        have hq_se : q.startRow ≤ q.endRow := wf_sr_le_er (wf_allNodes m hwfm q hq_in_m)
        intro hcontra
        rw [hnds] at hcontra
        have h2 : nd.startRow + 1 = q.startRow + 1 := Option.some.inj hcontra
        rcases hdisj with h3 | h3
        · omega
        · omega

/-- Claim C9: on a well-formed module parse, the extraction traversal never
recurses into a function definition, so a function definition nested inside
another function's body produces no Function entity (no extracted Function
starts at a nested definition's line), and the inclusive spans of any two
distinct extracted Functions never nest (neither is contained in the other). -/
theorem extract_info_no_nesting (code : Text) (root : CNode)
    (hwf : wfNode root = true) (hroot : root.kind = "module") :
    List.Pairwise (fun F G => ∀ s1 e1 s2 e2, F.start_line = some s1 →
        F.end_line = some e1 → G.start_line = some s2 → G.end_line = some e2 →
        ¬(s1 ≤ s2 ∧ e2 ≤ e1) ∧ ¬(s2 ≤ s1 ∧ e1 ≤ e2)) (extract_info code root)
    ∧ (∀ m ∈ allNodesL root.children, m.kind = "function_definition" →
       ∀ q ∈ allNodesL m.children, q.kind = "function_definition" →
       ∀ F ∈ extract_info code root, F.start_line ≠ some (q.startRow + 1)) := by
  have hvis : extractVisit code root none root = extract_info code root := by
    cases root with
    | mk f k nm tx sr er cs =>
      have hk : k = "module" := by simpa [CNode.kind] using hroot
      subst hk
      rw [show extractVisit code (CNode.mk f "module" nm tx sr er cs) none
            (CNode.mk f "module" nm tx sr er cs)
          = extractVisitL code (CNode.mk f "module" nm tx sr er cs) none cs
          from by simp [extractVisit]]
      rfl
  constructor
  · have hpw := extractVisit_pairwise code root root none hwf
    rw [hvis] at hpw
    have hmemse : ∀ F ∈ extract_info code root, ∀ s e, F.start_line = some s →
        F.end_line = some e → s ≤ e := by
      intro F hF s e hs he
      obtain ⟨c, hc, hFc⟩ := extractVisitL_mem.mp hF
      obtain ⟨nd, hnd, _, _, hnds, hnde⟩ := extractVisit_mem c code root none F hFc
      have hndroot : nd ∈ allNodes root := by
        rw [allNodes_eq]
        exact List.mem_cons_of_mem _ (mem_allNodesL.mpr ⟨c, hc, hnd⟩)
      have hse := wf_sr_le_er (wf_allNodes root hwf nd hndroot)
      rw [hnds] at hs
      rw [hnde] at he
      have hs2 := Option.some.inj hs
      have he2 := Option.some.inj he
      omega
    refine List.Pairwise.imp_of_mem ?_ hpw
    intro F G hFm hGm hR s1 e1 s2 e2 hs1 he1 hs2 he2
    have hlt := hR e1 s2 he1 hs2
    have h1 := hmemse F hFm s1 e1 hs1 he1
    have h2 := hmemse G hGm s2 e2 hs2 he2
    exact ⟨fun hpair => by omega, fun hpair => by omega⟩
  · intro m hm hmk q hq hqk F hF
    have hm2 : m ∈ allNodes root := by
      rw [allNodes_eq]
      exact List.mem_cons_of_mem _ hm
    refine extractVisit_no_nested code root root none hwf m hm2 hmk q hq hqk F ?_
    rw [hvis]
    exact hF

/-- Witness for extract_info_no_nesting: the two functions of the concrete
two-function module occupy non-nested spans. -/
theorem extract_info_no_nesting_witness :
    List.Pairwise (fun F G => ∀ s1 e1 s2 e2, F.start_line = some s1 →
        F.end_line = some e1 → G.start_line = some s2 → G.end_line = some e2 →
        ¬(s1 ≤ s2 ∧ e2 ≤ e1) ∧ ¬(s2 ≤ s1 ∧ e1 ≤ e2))
      (extract_info exModuleCode exModule) :=
  (extract_info_no_nesting exModuleCode exModule (by decide) (by decide)).1

/-! ### Fallible defined-pipelines traversal lemmas -/

theorem exSeq_ok_inv {α : Type} {a b : Except Unit (List α)} {l : List α}
    (h : exSeq a b = .ok l) :
    ∃ l1 l2, a = .ok l1 ∧ b = .ok l2 ∧ l = l1 ++ l2 := by
  cases a with
  | error e => simp [exSeq] at h
  | ok l1 =>
    cases b with
    | error e => simp [exSeq] at h
    | ok l2 => exact ⟨l1, l2, rfl, rfl, (Except.ok.inj h).symm⟩

theorem exSeq_error {α : Type} {a b : Except Unit (List α)} :
    exSeq a b = .error () ↔ a = .error () ∨ b = .error () := by
  cases a with
  | error e => cases e; simp [exSeq]
  | ok l1 =>
    cases b with
    | error e => cases e; simp [exSeq]
    | ok l2 => simp [exSeq]

theorem exMap_ok_inv {α β : Type} {f : α → β} {x : Except Unit α} {b : β}
    (h : x.map f = .ok b) : ∃ a, x = .ok a ∧ b = f a := by
  cases x with
  | error e => simp [Except.map] at h
  | ok a => exact ⟨a, rfl, (Except.ok.inj h).symm⟩

theorem exMap_error {α β : Type} {f : α → β} {x : Except Unit α} :
    x.map f = .error () ↔ x = .error () := by
  cases x with
  | error e => cases e; simp [Except.map]
  | ok a => simp [Except.map]

theorem dvM_cons_map {k : String} {m : List (String × Yaml)}
    {rest : List (String × Yaml)} :
    definedVisitM ((k, Yaml.map m) :: rest)
      = if hasKey m "nodes" then
          match pySet (lookupY m "nodes") with
          | .error e => .error e
          | .ok ns =>
            exSeq ((definedVisitM m).map (fun l => (k, ns) :: l)) (definedVisitM rest)
        else definedVisitM rest := rfl

theorem dvM_cons_list {k : String} {xs : List Yaml} {rest : List (String × Yaml)} :
    definedVisitM ((k, Yaml.list xs) :: rest)
      = exSeq (definedVisitL xs) (definedVisitM rest) := rfl

theorem dvL_cons {y : Yaml} {rest : List Yaml} :
    definedVisitL (y :: rest) = exSeq (definedVisit y) (definedVisitL rest) := rfl

theorem dvL_ok_elem : ∀ {xs : List Yaml} {ps}, definedVisitL xs = .ok ps →
    ∀ {y}, y ∈ xs → ∃ ps', definedVisit y = .ok ps' ∧ ∀ p ∈ ps', p ∈ ps := by
  intro xs
  induction xs with
  | nil => intro ps _ y hy; simp at hy
  | cons x rest ih =>
    intro ps h y hy
    rw [dvL_cons] at h
    obtain ⟨l1, l2, h1, h2, rfl⟩ := exSeq_ok_inv h
    rcases List.mem_cons.mp hy with rfl | hy2
    · exact ⟨l1, h1, fun p hp => List.mem_append.mpr (Or.inl hp)⟩
    · obtain ⟨ps', hdv, hsub⟩ := ih h2 hy2
      exact ⟨ps', hdv, fun p hp => List.mem_append.mpr (Or.inr (hsub p hp))⟩

theorem dvL_mem_exists : ∀ {xs : List Yaml} {ps}, definedVisitL xs = .ok ps →
    ∀ {p}, p ∈ ps → ∃ y ∈ xs, ∃ ps', definedVisit y = .ok ps' ∧ p ∈ ps' := by
  intro xs
  induction xs with
  | nil =>
    intro ps h p hp
    rw [show definedVisitL [] = .ok [] from rfl] at h
    rw [← Except.ok.inj h] at hp
    simp at hp
  | cons x rest ih =>
    intro ps h p hp
    rw [dvL_cons] at h
    obtain ⟨l1, l2, h1, h2, rfl⟩ := exSeq_ok_inv h
    rcases List.mem_append.mp hp with hp2 | hp2
    · exact ⟨x, List.mem_cons_self _ _, l1, h1, hp2⟩
    · obtain ⟨y, hy, ps', hdv, hp3⟩ := ih h2 hp2
      exact ⟨y, List.mem_cons_of_mem _ hy, ps', hdv, hp3⟩

theorem dvL_error_iff : ∀ {xs : List Yaml},
    definedVisitL xs = .error () ↔ ∃ y ∈ xs, definedVisit y = .error () := by
  intro xs
  induction xs with
  | nil =>
    constructor
    · intro h; simp [show definedVisitL [] = .ok [] from rfl] at h
    · rintro ⟨y, hy, _⟩; simp at hy
  | cons x rest ih =>
    rw [dvL_cons, exSeq_error, ih]
    constructor
    · rintro (h | ⟨y, hy, h⟩)
      · exact ⟨x, List.mem_cons_self _ _, h⟩
      · exact ⟨y, List.mem_cons_of_mem _ hy, h⟩
    · rintro ⟨y, hy, h⟩
      rcases List.mem_cons.mp hy with rfl | hy2
      · exact Or.inl h
      · exact Or.inr ⟨y, hy2, h⟩

theorem dvM_cons_ok_rest {k : String} {v : Yaml} {rest : List (String × Yaml)}
    {ps : List (String × List (Option String))}
    (h : definedVisitM ((k, v) :: rest) = .ok ps) :
    ∃ restr, definedVisitM rest = .ok restr ∧ ∀ p ∈ restr, p ∈ ps := by
  cases v with
  | null => exact ⟨ps, h, fun p hp => hp⟩
  | str s => exact ⟨ps, h, fun p hp => hp⟩
  | list xs =>
    rw [dvM_cons_list] at h
    obtain ⟨l1, l2, _, h2, rfl⟩ := exSeq_ok_inv h
    exact ⟨l2, h2, fun p hp => List.mem_append.mpr (Or.inr hp)⟩
  | map m =>
    rw [dvM_cons_map] at h
    by_cases hk : hasKey m "nodes" = true
    · rw [if_pos hk] at h
      cases hps : pySet (lookupY m "nodes") with
      | error e => rw [hps] at h; simp at h
      | ok ns =>
        rw [hps] at h
        obtain ⟨l1, l2, _, h2, rfl⟩ := exSeq_ok_inv h
        exact ⟨l2, h2, fun p hp => List.mem_append.mpr (Or.inr hp)⟩
    · rw [if_neg hk] at h
      exact ⟨ps, h, fun p hp => hp⟩

theorem dvM_cons_error_of_rest {k : String} {v : Yaml} {rest : List (String × Yaml)}
    (h : definedVisitM rest = .error ()) :
    definedVisitM ((k, v) :: rest) = .error () := by
  cases v with
  | null => exact h
  | str s => exact h
  | list xs =>
    rw [dvM_cons_list]
    exact exSeq_error.mpr (Or.inr h)
  | map m =>
    rw [dvM_cons_map]
    by_cases hk : hasKey m "nodes" = true
    · rw [if_pos hk]
      cases hps : pySet (lookupY m "nodes") with
      | error e => cases e; rfl
      | ok ns => exact exSeq_error.mpr (Or.inr h)
    · rw [if_neg hk]
      exact h

theorem dvM_ok_entry_nodes : ∀ {es : List (String × Yaml)} {ps} {k : String}
    {m : List (String × Yaml)}, definedVisitM es = .ok ps →
    (k, Yaml.map m) ∈ es → hasKey m "nodes" = true →
    ∃ ns inner, pySet (lookupY m "nodes") = .ok ns ∧ definedVisitM m = .ok inner
      ∧ (k, ns) ∈ ps ∧ ∀ p ∈ inner, p ∈ ps := by
  intro es
  induction es with
  | nil => intro ps k m _ hkv; simp at hkv
  | cons kv rest ih =>
    intro ps k m h hkv hk
    rcases List.mem_cons.mp hkv with heq | hmem
    · rw [← heq] at h
      rw [dvM_cons_map, if_pos hk] at h
      cases hps : pySet (lookupY m "nodes") with
      | error e => rw [hps] at h; simp at h
      | ok ns =>
        rw [hps] at h
        obtain ⟨l1, l2, h1, h2, rfl⟩ := exSeq_ok_inv h
        obtain ⟨inner, hinner, rfl⟩ := exMap_ok_inv h1
        refine ⟨ns, inner, rfl, hinner, ?_, ?_⟩
        · exact List.mem_append.mpr (Or.inl (List.mem_cons_self _ _))
        · intro p hp
          exact List.mem_append.mpr (Or.inl (List.mem_cons_of_mem _ hp))
    · obtain ⟨restr, hrest, hsub⟩ := by
        obtain ⟨k0, v0⟩ := kv
        exact dvM_cons_ok_rest h
      obtain ⟨ns, inner, hps, hinner, hmemps, hsubi⟩ := ih hrest hmem hk
      exact ⟨ns, inner, hps, hinner, hsub _ hmemps,
        fun p hp => hsub p (hsubi p hp)⟩

theorem dvM_ok_entry_other : ∀ {es : List (String × Yaml)} {ps} {k : String}
    {v : Yaml}, definedVisitM es = .ok ps → (k, v) ∈ es → (∀ m, v ≠ Yaml.map m) →
    ∃ ps', definedVisit v = .ok ps' ∧ ∀ p ∈ ps', p ∈ ps := by
  intro es
  induction es with
  | nil => intro ps k v _ hkv; simp at hkv
  | cons kv rest ih =>
    intro ps k v h hkv hnm
    rcases List.mem_cons.mp hkv with heq | hmem
    · rw [← heq] at h
      cases v with
      | null => exact ⟨[], rfl, by simp⟩
      | str s => exact ⟨[], rfl, by simp⟩
      | list xs =>
        rw [dvM_cons_list] at h
        obtain ⟨l1, l2, h1, _, rfl⟩ := exSeq_ok_inv h
        exact ⟨l1, h1, fun p hp => List.mem_append.mpr (Or.inl hp)⟩
      | map m => exact absurd rfl (hnm m)
    · obtain ⟨restr, hrest, hsub⟩ := by
        obtain ⟨k0, v0⟩ := kv
        exact dvM_cons_ok_rest h
      obtain ⟨ps', hdv, hsub2⟩ := ih hrest hmem hnm
      exact ⟨ps', hdv, fun p hp => hsub p (hsub2 p hp)⟩

theorem dvM_error_of_entry_pySet : ∀ {es : List (String × Yaml)} {k : String}
    {m : List (String × Yaml)}, (k, Yaml.map m) ∈ es → hasKey m "nodes" = true →
    pySet (lookupY m "nodes") = .error () → definedVisitM es = .error () := by
  intro es
  induction es with
  | nil => intro k m hkv; simp at hkv
  | cons kv rest ih =>
    intro k m hkv hk hps
    rcases List.mem_cons.mp hkv with heq | hmem
    · rw [← heq, dvM_cons_map, if_pos hk, hps]
    · obtain ⟨k0, v0⟩ := kv
      exact dvM_cons_error_of_rest (ih hmem hk hps)

theorem dvM_error_of_entry_inner : ∀ {es : List (String × Yaml)} {k : String}
    {m : List (String × Yaml)}, (k, Yaml.map m) ∈ es → hasKey m "nodes" = true →
    definedVisitM m = .error () → definedVisitM es = .error () := by
  intro es
  induction es with
  | nil => intro k m hkv; simp at hkv
  | cons kv rest ih =>
    intro k m hkv hk hm
    rcases List.mem_cons.mp hkv with heq | hmem
    · rw [← heq, dvM_cons_map, if_pos hk]
      cases hps : pySet (lookupY m "nodes") with
      | error e => cases e; rfl
      | ok ns => exact exSeq_error.mpr (Or.inl (exMap_error.mpr hm))
    · obtain ⟨k0, v0⟩ := kv
      exact dvM_cons_error_of_rest (ih hmem hk hm)

theorem dvM_error_of_entry_other : ∀ {es : List (String × Yaml)} {k : String}
    {v : Yaml}, (k, v) ∈ es → (∀ m, v ≠ Yaml.map m) →
    definedVisit v = .error () → definedVisitM es = .error () := by
  intro es
  induction es with
  | nil => intro k v hkv; simp at hkv
  | cons kv rest ih =>
    intro k v hkv hnm hv
    rcases List.mem_cons.mp hkv with heq | hmem
    · rw [← heq]
      cases v with
      | null => simp [show definedVisit Yaml.null = .ok [] from rfl] at hv
      | str s => simp [show definedVisit (Yaml.str s) = .ok [] from rfl] at hv
      | list xs =>
        rw [dvM_cons_list]
        exact exSeq_error.mpr (Or.inl hv)
      | map m => exact absurd rfl (hnm m)
    · obtain ⟨k0, v0⟩ := kv
      exact dvM_cons_error_of_rest (ih hmem hnm hv)

theorem dvM_ok_mem : ∀ {es : List (String × Yaml)} {ps}
    {p : String × List (Option String)}, definedVisitM es = .ok ps → p ∈ ps →
    (∃ k m ns, (k, Yaml.map m) ∈ es ∧ hasKey m "nodes" = true
      ∧ pySet (lookupY m "nodes") = .ok ns ∧ p = (k, ns))
    ∨ (∃ k m inner, (k, Yaml.map m) ∈ es ∧ hasKey m "nodes" = true
      ∧ definedVisitM m = .ok inner ∧ p ∈ inner)
    ∨ (∃ k xs l1, (k, Yaml.list xs) ∈ es ∧ definedVisitL xs = .ok l1 ∧ p ∈ l1) := by
  intro es
  induction es with
  | nil =>
    intro ps p h hp
    rw [show definedVisitM [] = .ok [] from rfl] at h
    rw [← Except.ok.inj h] at hp
    simp at hp
  | cons kv rest ih =>
    intro ps p h hp
    have lift : (∃ k m ns, (k, Yaml.map m) ∈ rest ∧ hasKey m "nodes" = true
          ∧ pySet (lookupY m "nodes") = .ok ns ∧ p = (k, ns))
        ∨ (∃ k m inner, (k, Yaml.map m) ∈ rest ∧ hasKey m "nodes" = true
          ∧ definedVisitM m = .ok inner ∧ p ∈ inner)
        ∨ (∃ k xs l1, (k, Yaml.list xs) ∈ rest ∧ definedVisitL xs = .ok l1 ∧ p ∈ l1) →
        (∃ k m ns, (k, Yaml.map m) ∈ kv :: rest ∧ hasKey m "nodes" = true
          ∧ pySet (lookupY m "nodes") = .ok ns ∧ p = (k, ns))
        ∨ (∃ k m inner, (k, Yaml.map m) ∈ kv :: rest ∧ hasKey m "nodes" = true
          ∧ definedVisitM m = .ok inner ∧ p ∈ inner)
        ∨ (∃ k xs l1, (k, Yaml.list xs) ∈ kv :: rest ∧ definedVisitL xs = .ok l1
            ∧ p ∈ l1) := by
      rintro (⟨k, m, ns, hkv, hk, hps, hpe⟩ | ⟨k, m, inner, hkv, hk, hi, hpi⟩
        | ⟨k, xs, l1, hkv, hl, hpl⟩)
      · exact Or.inl ⟨k, m, ns, List.mem_cons_of_mem _ hkv, hk, hps, hpe⟩
      · exact Or.inr (Or.inl ⟨k, m, inner, List.mem_cons_of_mem _ hkv, hk, hi, hpi⟩)
      · exact Or.inr (Or.inr ⟨k, xs, l1, List.mem_cons_of_mem _ hkv, hl, hpl⟩)
    obtain ⟨k0, v0⟩ := kv
    cases v0 with
    | null => exact lift (ih h hp)
    | str s => exact lift (ih h hp)
    | list xs =>
      rw [dvM_cons_list] at h
      obtain ⟨l1, l2, h1, h2, rfl⟩ := exSeq_ok_inv h
      rcases List.mem_append.mp hp with hp2 | hp2
      · exact Or.inr (Or.inr ⟨k0, xs, l1, List.mem_cons_self _ _, h1, hp2⟩)
      · exact lift (ih h2 hp2)
    | map m =>
      rw [dvM_cons_map] at h
      by_cases hk : hasKey m "nodes" = true
      · rw [if_pos hk] at h
        cases hps : pySet (lookupY m "nodes") with
        | error e => rw [hps] at h; simp at h
        | ok ns =>
          rw [hps] at h
          obtain ⟨l1, l2, h1, h2, rfl⟩ := exSeq_ok_inv h
          obtain ⟨inner, hinner, rfl⟩ := exMap_ok_inv h1
          rcases List.mem_append.mp hp with hp2 | hp2
          · rcases List.mem_cons.mp hp2 with rfl | hp3
            · exact Or.inl ⟨k0, m, ns, List.mem_cons_self _ _, hk, hps, rfl⟩
            · exact Or.inr (Or.inl
                ⟨k0, m, inner, List.mem_cons_self _ _, hk, hinner, hp3⟩)
          · exact lift (ih h2 hp2)
      · rw [if_neg hk] at h
        exact lift (ih h hp)

theorem dvM_error_mem : ∀ {es : List (String × Yaml)},
    definedVisitM es = .error () →
    (∃ k m, (k, Yaml.map m) ∈ es ∧ hasKey m "nodes" = true
      ∧ pySet (lookupY m "nodes") = .error ())
    ∨ (∃ k m, (k, Yaml.map m) ∈ es ∧ hasKey m "nodes" = true
      ∧ definedVisitM m = .error ())
    ∨ (∃ k xs, (k, Yaml.list xs) ∈ es ∧ definedVisitL xs = .error ()) := by
  intro es
  induction es with
  | nil => intro h; simp [show definedVisitM [] = .ok [] from rfl] at h
  | cons kv rest ih =>
    intro h
    have lift : (∃ k m, (k, Yaml.map m) ∈ rest ∧ hasKey m "nodes" = true
          ∧ pySet (lookupY m "nodes") = .error ())
        ∨ (∃ k m, (k, Yaml.map m) ∈ rest ∧ hasKey m "nodes" = true
          ∧ definedVisitM m = .error ())
        ∨ (∃ k xs, (k, Yaml.list xs) ∈ rest ∧ definedVisitL xs = .error ()) →
        (∃ k m, (k, Yaml.map m) ∈ kv :: rest ∧ hasKey m "nodes" = true
          ∧ pySet (lookupY m "nodes") = .error ())
        ∨ (∃ k m, (k, Yaml.map m) ∈ kv :: rest ∧ hasKey m "nodes" = true
          ∧ definedVisitM m = .error ())
        ∨ (∃ k xs, (k, Yaml.list xs) ∈ kv :: rest ∧ definedVisitL xs = .error ()) := by
      rintro (⟨k, m, hkv, hk, hps⟩ | ⟨k, m, hkv, hk, hm⟩ | ⟨k, xs, hkv, hl⟩)
      · exact Or.inl ⟨k, m, List.mem_cons_of_mem _ hkv, hk, hps⟩
      · exact Or.inr (Or.inl ⟨k, m, List.mem_cons_of_mem _ hkv, hk, hm⟩)
      · exact Or.inr (Or.inr ⟨k, xs, List.mem_cons_of_mem _ hkv, hl⟩)
    obtain ⟨k0, v0⟩ := kv
    cases v0 with
    | null => exact lift (ih h)
    | str s => exact lift (ih h)
    | list xs =>
      rw [dvM_cons_list, exSeq_error] at h
      rcases h with h | h
      · exact Or.inr (Or.inr ⟨k0, xs, List.mem_cons_self _ _, h⟩)
      · exact lift (ih h)
    | map m =>
      rw [dvM_cons_map] at h
      by_cases hk : hasKey m "nodes" = true
      · rw [if_pos hk] at h
        cases hps : pySet (lookupY m "nodes") with
        | error e =>
          cases e
          exact Or.inl ⟨k0, m, List.mem_cons_self _ _, hk, hps⟩
        | ok ns =>
          rw [hps] at h
          rw [exSeq_error] at h
          rcases h with h | h
          · exact Or.inr (Or.inl
              ⟨k0, m, List.mem_cons_self _ _, hk, exMap_error.mp h⟩)
          · exact lift (ih h)
      · rw [if_neg hk] at h
        exact lift (ih h)

theorem definedVisit_ok_sub : ∀ (doc : Yaml) (pairs : List (String × List (Option String)))
    (p : String × List (Option String)), definedVisit doc = .ok pairs → p ∈ pairs →
    ∃ es m, DReach doc (.map es) ∧ (p.1, Yaml.map m) ∈ es
      ∧ hasKey m "nodes" = true ∧ pySet (lookupY m "nodes") = .ok p.2 := by
  intro doc
  induction doc using yamlInduction with
  | hnull =>
    intro pairs p h hp
    rw [← Except.ok.inj (show Except.ok [] = Except.ok pairs from h)] at hp
    simp at hp
  | hstr s =>
    intro pairs p h hp
    rw [← Except.ok.inj (show Except.ok [] = Except.ok pairs from h)] at hp
    simp at hp
  | hlist xs ih =>
    intro pairs p h hp
    obtain ⟨y, hy, ps', hdv, hp'⟩ :=
      dvL_mem_exists (show definedVisitL xs = .ok pairs from h) hp
    obtain ⟨es, m, hr, hm, hk, hps⟩ := ih y hy ps' p hdv hp'
    exact ⟨es, m, dreach_trans (DReach.listElem (DReach.refl _) hy) hr, hm, hk, hps⟩
  | hmap es ih =>
    intro pairs p h hp
    rcases dvM_ok_mem (show definedVisitM es = .ok pairs from h) hp with
      ⟨k, m, ns, hkv, hk, hps, hpe⟩ | ⟨k, m, inner, hkv, hk, hi, hpi⟩
      | ⟨k, xs, l1, hkv, hl, hpl⟩
    · subst hpe
      exact ⟨es, m, DReach.refl _, hkv, hk, hps⟩
    · obtain ⟨es', m', hr, hm', hk', hps'⟩ :=
        ih (k, Yaml.map m) hkv inner p (show definedVisit (.map m) = .ok inner from hi) hpi
      exact ⟨es', m', dreach_trans (DReach.mapNodes (DReach.refl _) hkv hk) hr,
        hm', hk', hps'⟩
    · obtain ⟨es', m', hr, hm', hk', hps'⟩ :=
        ih (k, Yaml.list xs) hkv l1 p (show definedVisit (.list xs) = .ok l1 from hl) hpl
      exact ⟨es', m', dreach_trans
        (DReach.mapOther (DReach.refl _) hkv (fun m2 h2 => Yaml.noConfusion h2)) hr,
        hm', hk', hps'⟩

theorem dreach_ok_sub {doc sub : Yaml} (h : DReach doc sub) :
    ∀ {pairs}, definedVisit doc = .ok pairs →
    ∃ ps, definedVisit sub = .ok ps ∧ ∀ p ∈ ps, p ∈ pairs := by
  induction h with
  | refl => exact fun hd => ⟨_, hd, fun p hp => hp⟩
  | listElem _ hy ih =>
    intro pairs hd
    obtain ⟨ps, hdv, hsub⟩ := ih hd
    obtain ⟨ps', hdv', hsub'⟩ :=
      dvL_ok_elem (show definedVisitL _ = .ok ps from hdv) hy
    exact ⟨ps', hdv', fun p hp => hsub p (hsub' p hp)⟩
  | mapOther _ hkv hnm ih =>
    intro pairs hd
    obtain ⟨ps, hdv, hsub⟩ := ih hd
    obtain ⟨ps', hdv', hsub'⟩ :=
      dvM_ok_entry_other (show definedVisitM _ = .ok ps from hdv) hkv hnm
    exact ⟨ps', hdv', fun p hp => hsub p (hsub' p hp)⟩
  | mapNodes _ hkv hk ih =>
    intro pairs hd
    obtain ⟨ps, hdv, hsub⟩ := ih hd
    obtain ⟨ns, inner, _, hinner, _, hsubi⟩ :=
      dvM_ok_entry_nodes (show definedVisitM _ = .ok ps from hdv) hkv hk
    exact ⟨inner, hinner, fun p hp => hsub p (hsubi p hp)⟩

theorem definedVisit_ok_complete {doc : Yaml} {es m : List (String × Yaml)}
    {k : String} {ns : List (Option String)}
    {pairs : List (String × List (Option String))}
    (hr : DReach doc (.map es)) (hkv : (k, Yaml.map m) ∈ es)
    (hk : hasKey m "nodes" = true) (hps : pySet (lookupY m "nodes") = .ok ns)
    (hd : definedVisit doc = .ok pairs) : (k, ns) ∈ pairs := by
  obtain ⟨ps, hdv, hsub⟩ := dreach_ok_sub hr hd
  obtain ⟨ns', inner, hps', _, hmem, _⟩ :=
    dvM_ok_entry_nodes (show definedVisitM es = .ok ps from hdv) hkv hk
  have : ns' = ns := by
    rw [hps] at hps'
    exact (Except.ok.inj hps').symm
  rw [← this]
  exact hsub _ hmem

theorem definedVisit_error_sub : ∀ (doc : Yaml), definedVisit doc = .error () →
    ∃ es m k, DReach doc (.map es) ∧ (k, Yaml.map m) ∈ es
      ∧ hasKey m "nodes" = true ∧ pySet (lookupY m "nodes") = .error () := by
  intro doc
  induction doc using yamlInduction with
  | hnull => intro h; simp [show definedVisit Yaml.null = .ok [] from rfl] at h
  | hstr s => intro h; simp [show definedVisit (Yaml.str s) = .ok [] from rfl] at h
  | hlist xs ih =>
    intro h
    obtain ⟨y, hy, hdv⟩ := dvL_error_iff.mp (show definedVisitL xs = .error () from h)
    obtain ⟨es, m, k, hr, hm, hk, hps⟩ := ih y hy hdv
    exact ⟨es, m, k, dreach_trans (DReach.listElem (DReach.refl _) hy) hr, hm, hk, hps⟩
  | hmap es ih =>
    intro h
    rcases dvM_error_mem (show definedVisitM es = .error () from h) with
      ⟨k, m, hkv, hk, hps⟩ | ⟨k, m, hkv, hk, hm⟩ | ⟨k, xs, hkv, hl⟩
    · exact ⟨es, m, k, DReach.refl _, hkv, hk, hps⟩
    · obtain ⟨es', m', k', hr, hm', hk', hps'⟩ :=
        ih (k, Yaml.map m) hkv (show definedVisit (.map m) = .error () from hm)
      exact ⟨es', m', k', dreach_trans (DReach.mapNodes (DReach.refl _) hkv hk) hr,
        hm', hk', hps'⟩
    · obtain ⟨es', m', k', hr, hm', hk', hps'⟩ :=
        ih (k, Yaml.list xs) hkv (show definedVisit (.list xs) = .error () from hl)
      exact ⟨es', m', k', dreach_trans
        (DReach.mapOther (DReach.refl _) hkv (fun m2 h2 => Yaml.noConfusion h2)) hr,
        hm', hk', hps'⟩

theorem dreach_error_lift {doc sub : Yaml} (h : DReach doc sub)
    (he : definedVisit sub = .error ()) : definedVisit doc = .error () := by
  induction h with
  | refl => exact he
  | listElem _ hy ih =>
    exact ih (dvL_error_iff.mpr ⟨_, hy, he⟩)
  | mapOther _ hkv hnm ih =>
    exact ih (dvM_error_of_entry_other hkv hnm he)
  | mapNodes _ hkv hk ih =>
    exact ih (dvM_error_of_entry_inner hkv hk
      (show definedVisitM _ = .error () from he))

/-- Claim C2 counterexample: a pipeline mapping nested behind a plain mapping
value that itself has no "nodes" key is not found: the traversal does not
descend into mapping values lacking a "nodes" key, so the claimed full
recursive descent fails and the result map is empty instead of containing the
nested pipeline. -/
theorem defined_pipelines_no_descent_counterexample :
    get_defined_pipelines (.ok (.map
        [("a", .map [("b", .map [("nodes", .list [.str "n1"])])])])) = []
    ∧ ("b", [some "n1"]) ∉ get_defined_pipelines (.ok (.map
        [("a", .map [("b", .map [("nodes", .list [.str "n1"])])])])) := by
  constructor <;> decide

/-- Claim C2 (amended): when the whole visit succeeds, the
get_defined_pipelines traversal contributes (enclosing key, set(nodes value))
exactly for the mapping entries whose value is a mapping containing a "nodes"
key and that are reachable by descending through sequence elements,
non-mapping values, and mapping values that themselves carry a "nodes" key
(recursion continues into such a sub-mapping after it contributes); mapping
values without a "nodes" key are not descended into; and the visit raises
(TypeError of set()) exactly when some reachable "nodes" value is not
iterable (e.g. null) or has an unhashable element, in which case the blanket
handler returns the empty map for the whole document. -/
theorem defined_pipelines_characterization :
    (∀ (doc : Yaml) (pairs : List (String × List (Option String)))
        (k : String) (ns : List (Option String)),
      definedVisit doc = .ok pairs →
      ((k, ns) ∈ pairs ↔ ∃ es m, DReach doc (.map es) ∧ (k, Yaml.map m) ∈ es
        ∧ hasKey m "nodes" = true ∧ pySet (lookupY m "nodes") = .ok ns))
    ∧ (∀ (doc : Yaml), definedVisit doc = .error () ↔
        ∃ es m k, DReach doc (.map es) ∧ (k, Yaml.map m) ∈ es
          ∧ hasKey m "nodes" = true ∧ pySet (lookupY m "nodes") = .error ())
    ∧ (∀ (doc : Yaml) (e : Unit), definedVisit doc = .error e →
        get_defined_pipelines (.ok doc) = [])
    ∧ get_defined_pipelines (.ok (.map [("p", .map [("nodes", Yaml.null)])])) = [] := by
  refine ⟨?_, ?_, ?_, by decide⟩
  · intro doc pairs k ns hd
    constructor
    · intro hp
      exact definedVisit_ok_sub doc pairs (k, ns) hd hp
    · rintro ⟨es, m, hr, hm, hk, hps⟩
      exact definedVisit_ok_complete hr hm hk hps hd
  · intro doc
    constructor
    · exact definedVisit_error_sub doc
    · rintro ⟨es, m, k, hr, hm, hk, hps⟩
      exact dreach_error_lift hr (dvM_error_of_entry_pySet hm hk hps)
  · intro doc e hd
    cases e
    unfold get_defined_pipelines
    change (match definedVisit doc with
      | Except.error _ => ([] : List (String × List (Option String)))
      | Except.ok pairs => List.foldl (fun m kv => dictInsert m kv.1 kv.2) [] pairs) = []
    rw [hd]

/-- Witness for defined_pipelines_characterization: on a concrete document
whose visit succeeds, the contributed pair is recovered from its reachability
description. -/
theorem defined_pipelines_characterization_witness :
    ("p", [some "n1"]) ∈ [("p", ([some "n1"] : List (Option String)))] :=
  (defined_pipelines_characterization.1
      (.map [("p", .map [("nodes", .list [.str "n1"])])])
      [("p", [some "n1"])] "p" [some "n1"] rfl).mpr
    ⟨[("p", .map [("nodes", .list [.str "n1"])])], [("nodes", .list [.str "n1"])],
      DReach.refl _, List.mem_singleton.mpr rfl, by decide, rfl⟩
